import Mathlib

/-!
Verification of the go-dictzip codec (reader in the current `dictzip` package,
writer in `writer.go`).  Bytes are modelled as natural numbers (< 256 in all
well-formed data), byte sequences as `List Nat`, Go `int`/`int64` values that
can be negative as `Int`, and non-negative counters as `Nat`.

The deflate engine (`compress/flate`) is an external library, not part of this
repository; it is modelled abstractly as an `Engine`: a per-chunk compression
function (the writer resets the compressor after every flushed chunk, so each
chunk is compressed independently), the byte sequence emitted by
`flate.Writer.Close` on an empty stream (the final sync/end marker), and a
decompression function.  The single assumption `decompress_flushed` states the
documented property of deflate this package relies on: decompressing a
concatenation of independently flushed chunks, from any chunk boundary, yields
the concatenation of the original chunk contents and stops at the final
end-of-stream marker.
-/

namespace GoDictzip

instance {ε α : Type} [DecidableEq ε] [DecidableEq α] : DecidableEq (Except ε α) :=
  fun a b =>
    match a, b with
    | .error x, .error y => decidable_of_iff (x = y) (by simp)
    | .ok x, .ok y => decidable_of_iff (x = y) (by simp)
    | .error _, .ok _ => isFalse (fun h => Except.noConfusion h)
    | .ok _, .error _ => isFalse (fun h => Except.noConfusion h)

/-- `binary.LittleEndian.PutUint16`: the two little-endian bytes of `n`
(truncating to 16 bits, as the Go `uint16` cast does). -/
def u16le (n : Nat) : List Nat := [n % 256, n / 256 % 256]

/-- `binary.LittleEndian.PutUint32`: the four little-endian bytes of `n`
(truncating to 32 bits, as the Go `uint32` cast does). -/
def u32le (n : Nat) : List Nat :=
  [n % 256, n / 256 % 256, n / 2 ^ 16 % 256, n / 2 ^ 24 % 256]

/-- `binary.LittleEndian.Uint16` applied to bytes `lo`, `hi`. -/
def u16dec (lo hi : Nat) : Nat := lo + 256 * hi

/-- `binary.LittleEndian.Uint16` applied to a 2-byte buffer. -/
def u16dec2 (bs : List Nat) : Nat := u16dec (bs.getD 0 0) (bs.getD 1 0)

/-- The reversed CRC-32 (IEEE) polynomial used by `hash/crc32.IEEE`. -/
def crcPoly : Nat := 0xEDB88320

/-- One bit step of the reflected CRC-32 algorithm. -/
def crcBitStep (c : Nat) : Nat :=
  if c % 2 = 1 then (c / 2) ^^^ crcPoly else c / 2

/-- Absorb one byte into a running CRC-32 state. -/
def crcByteStep (c b : Nat) : Nat := (crcBitStep^[8]) (c ^^^ b)

/-- The initial CRC-32 state (all ones, before the final complement). -/
def crcInit : Nat := 0xFFFFFFFF

/-- Absorb a byte sequence into a running CRC-32 state
(`hash.Hash32.Write`). -/
def crcUpdate (c : Nat) (bs : List Nat) : Nat := bs.foldl crcByteStep c

/-- CRC-32 (IEEE) of a byte sequence, as returned by `crc32.ChecksumIEEE` /
`digest.Sum32` after writing the whole sequence. -/
def crc32 (bs : List Nat) : Nat := crcUpdate crcInit bs ^^^ 0xFFFFFFFF

/-- Abstract model of the `compress/flate` engine as used by this package:
the writer compresses every chunk from a freshly reset compressor and flushes
it (`compressChunk`), `flate.Writer.Close` on an empty stream appends
`closeMarker`, and the reader decompresses from an arbitrary chunk boundary
(`decompress` returns every byte the inflater can produce before the stream
ends).  `decompress_flushed` is the deflate property the package depends on. -/
structure Engine where
  compressChunk : List Nat → List Nat
  closeMarker : List Nat
  decompress : List Nat → List Nat
  decompress_flushed : ∀ (chunks : List (List Nat)) (rest : List Nat),
    (∀ b ∈ chunks.flatten, b < 256) →
    decompress ((chunks.map compressChunk).flatten ++ closeMarker ++ rest) =
      chunks.flatten

/-- Writer state (`dictzip.Writer` in `writer.go`).  `pending` holds the
uncompressed bytes fed to the flate compressor since its last reset (the
compressed image of which sits in `chunkBuf` once flushed), `tmp` the spilled
compressed chunks, `digest` the running CRC-32 state, `isize` the total
uncompressed byte count. -/
structure WState where
  chunkSize : Nat
  pending : List Nat
  hasData : Bool
  tmp : List Nat
  sizes : List Nat
  digest : Nat
  isize : Nat
  closed : Bool
  name : List Nat
  comment : List Nat
  extra : List Nat
  os : Nat
  modTime : Nat
  level : Int
  deriving Repr, DecidableEq

/-- `NewWriterLevel`: a fresh writer with the given compression level and
chunk size (OS defaults to `OSUnknown = 0xff`). -/
def newWriter (c : Nat) (level : Int) : WState :=
  { chunkSize := c, pending := [], hasData := false, tmp := [], sizes := [],
    digest := crcInit, isize := 0, closed := false, name := [], comment := [],
    extra := [], os := 0xff, modTime := 0, level := level }

/-- `Writer.flushCompressor`: if data is pending, flush the compressor
(emitting the chunk's compressed bytes), record the compressed length in
`sizes`, spill the bytes to `tmp`, and reset buffer and compressor. -/
def flushCompressor (E : Engine) (s : WState) : WState :=
  if s.hasData then
    { s with sizes := s.sizes ++ [(E.compressChunk s.pending).length],
             tmp := s.tmp ++ E.compressChunk s.pending,
             pending := [], hasData := false }
  else s

/-- One slice of the `Writer.Write` loop body: feed `slice` to the
compressor, update the CRC-32 digest and `isize`, and mark data pending. -/
def writeStep (s : WState) (slice : List Nat) : WState :=
  { s with pending := s.pending ++ slice,
           digest := crcUpdate s.digest slice,
           isize := s.isize + slice.length,
           hasData := s.hasData || !slice.isEmpty }

/-- One iteration of the `Writer.Write` loop on a slice that does not cross a
chunk boundary: feed the slice and flush if the cumulative uncompressed count
landed exactly on a chunk boundary. -/
def writeSlice (E : Engine) (s : WState) (slice : List Nat) : WState :=
  if (writeStep s slice).isize % (writeStep s slice).chunkSize = 0 then
    flushCompressor E (writeStep s slice)
  else writeStep s slice

/-- The loop of `Writer.Write`: split off bytes up to the current chunk
boundary (`chunkSize - isize % chunkSize`), feed them to the compressor,
and flush when the cumulative count reaches a chunk boundary.  `fuel`
bounds the number of iterations (each iteration consumes at least one byte
when `chunkSize ≥ 1`). -/
def writeLoop (E : Engine) : Nat → WState → List Nat → WState
  | 0, s, _ => s
  | _ + 1, s, [] => s
  | fuel + 1, s, p =>
    let boundary := s.chunkSize - s.isize % s.chunkSize
    writeLoop E fuel (writeSlice E s (p.take boundary)) (p.drop boundary)

/-- The effect of `Writer.Write` on a single byte.  The write loop is
equivalent to folding this over the input (proved below); it packages the
fact that chunk boundaries depend only on the cumulative byte count. -/
def writeByte (E : Engine) (s : WState) (b : Nat) : WState :=
  writeSlice E s [b]

/-- `Writer.Write`: on a closed writer it errors without touching state;
otherwise it runs the chunk-slicing loop over all of `p`. -/
def writeData (E : Engine) (s : WState) (p : List Nat) : WState :=
  if s.closed then s else writeLoop E (p.length + 1) s p

/-- A sequence of `Writer.Write` calls, one per element. -/
def writeMany (E : Engine) (s : WState) (parts : List (List Nat)) : WState :=
  parts.foldl (writeData E) s

/-- Errors produced while emitting the header (`ErrHeader` in Go). -/
inductive WErr
  | header
  deriving Repr, DecidableEq

/-- `Writer.writeString`: a NAME/COMMENT header string, zero-terminated;
fails on a zero byte or a code point above 0xff. -/
def writeString (bs : List Nat) : Except WErr (List Nat) :=
  if bs.any (fun b => b == 0 || 255 < b) then .error .header
  else .ok (bs ++ [0])

/-- `Writer.writeExtra`: the EXTRA field, starting with XLEN, then the RA
subfield (SI1 SI2 LEN VER CHLEN CHCNT and the chunk size table, all 16-bit
little-endian), then the user extra bytes verbatim.  Fails when CHLEN, CHCNT,
XLEN or any chunk size exceeds 65535 (the per-size check happens while
emitting the table in Go; the emitted value on the error path is discarded,
so checking all sizes up front is observationally the same). -/
def writeExtra (s : WState) : Except WErr (List Nat) :=
  let chlen := s.chunkSize
  if 65535 < chlen then .error .header
  else
    let chcnt := s.sizes.length
    if 65535 < chcnt then .error .header
    else
      let raLen := 6 + chcnt * 2
      let xlen := 4 + raLen + s.extra.length
      if 65535 < xlen then .error .header
      else if s.sizes.any (fun sz => 65535 < sz) then .error .header
      else .ok (u16le xlen ++ [82, 65] ++ u16le raLen ++ u16le 1 ++
        u16le chlen ++ u16le chcnt ++ (s.sizes.map u16le).flatten ++ s.extra)

/-- The FLG byte written by `Writer.writeHeader`: FEXTRA always, FNAME and
FCOMMENT when the corresponding strings are set. -/
def flgByte (s : WState) : Nat :=
  (4 ||| (if s.name.isEmpty then 0 else 8)) |||
    (if s.comment.isEmpty then 0 else 16)

/-- The MTIME field: zero when the modification time is unset. -/
def mtimeBytes (s : WState) : List Nat :=
  if 0 < s.modTime then u32le s.modTime else [0, 0, 0, 0]

/-- The XFL byte: 2 for `BestCompression` (level 9), 4 for `BestSpeed`
(level 1), otherwise 0. -/
def xflByte (s : WState) : Nat :=
  if s.level = 9 then 2 else if s.level = 1 then 4 else 0

/-- `Writer.writeHeader`: the 10-byte gzip lead-in, the EXTRA field, then the
optional NAME and COMMENT strings. -/
def writeHeaderBytes (s : WState) : Except WErr (List Nat) := do
  let extraField ← writeExtra s
  let nameField ← if s.name.isEmpty then pure [] else writeString s.name
  let commentField ← if s.comment.isEmpty then pure [] else writeString s.comment
  pure ([31, 139, 8, flgByte s] ++ mtimeBytes s ++ [xflByte s, s.os] ++
    extraField ++ nameField ++ commentField)

/-- `Writer.Close`: flush the final partial chunk, close the compressor
(appending the end marker to the now-empty chunk buffer), write the header,
copy the spilled chunks and the final marker, and append the gzip trailer
(CRC-32 digest and `uint32(isize)`).  A second call is a no-op.  Returns the
bytes written to the destination. -/
def closeW (E : Engine) (s : WState) : Except WErr (List Nat) :=
  if s.closed then .ok []
  else
    let s1 := flushCompressor E s
    match writeHeaderBytes s1 with
    | .error e => .error e
    | .ok hdr =>
      .ok (hdr ++ s1.tmp ++ E.closeMarker ++
        u32le (s1.digest ^^^ 0xFFFFFFFF) ++ u32le (s1.isize % 2 ^ 32))

/-- The partition of `D` into chunks of `c` uncompressed bytes (the last
chunk may be shorter); the chunking the writer's slicing loop realises. -/
def chunksOfAux (c : Nat) : Nat → List Nat → List (List Nat)
  | _, [] => []
  | 0, _ => []
  | fuel + 1, D => D.take c :: chunksOfAux c fuel (D.drop c)

/-- All chunks of `D` at chunk size `c`. -/
def chunksOf (c : Nat) (D : List Nat) : List (List Nat) :=
  chunksOfAux c D.length D

/-- Errors produced while parsing the header (the distinctions the reader's
error wrapping makes: truncation, bad magic, bad compression method, missing
EXTRA/RA data, unsupported RA version, over-long header string, bad header
CRC).  All are header errors (`ErrHeader`) except `eof`, which wraps
`io.ErrUnexpectedEOF` but is reported as a header error too (`headerErr`). -/
inductive PErr
  | eof
  | badMagic
  | badCM
  | noExtra
  | noRA
  | badVer
  | strTooLong
  | badCrc
  deriving Repr, DecidableEq

/-- `io.ReadFull` on an in-memory stream: exactly `n` bytes or failure. -/
def readN (n : Nat) (bs : List Nat) : Option (List Nat × List Nat) :=
  if n ≤ bs.length then some (bs.take n, bs.drop n) else none

/-- `Reader.readFlg`: consume the fixed 10-byte gzip lead-in, validate ID1,
ID2 and CM, and return the FLG byte (MTIME and OS are stored in the header
record and XFL ignored; none of them affect parsing).  The CRC-32 digest is
created fresh after these bytes, so they are not digested. -/
def readFlg (bs : List Nat) : Except PErr (Nat × List Nat) :=
  match readN 10 bs with
  | none => .error .eof
  | some (head, rest) =>
    if head.getD 0 0 ≠ 31 ∨ head.getD 1 0 ≠ 139 then .error .badMagic
    else if head.getD 2 0 ≠ 8 then .error .badCM
    else .ok (head.getD 3 0, rest)

/-- The chunk-size table loop of `readExtraSizes`: CHCNT 16-bit values. -/
def readSizesLoop : Nat → List Nat → Except PErr (List Nat × List Nat)
  | 0, bs => .ok ([], bs)
  | k + 1, bs =>
    match readN 2 bs with
    | none => .error .eof
    | some (b, rest) =>
      match readSizesLoop k rest with
      | .error e => .error e
      | .ok (szs, r) => .ok (u16dec2 b :: szs, r)

/-- `readExtraSizes`: VER (must be 1), CHLEN, CHCNT, then CHCNT compressed
chunk sizes, all 16-bit little-endian; trailing subfield bytes are ignored. -/
def readExtraSizes (bs : List Nat) : Except PErr (Nat × List Nat) :=
  match readN 2 bs with
  | none => .error .eof
  | some (verB, bs1) =>
    if u16dec2 verB ≠ 1 then .error .badVer
    else match readN 2 bs1 with
    | none => .error .eof
    | some (chlenB, bs2) =>
      match readN 2 bs2 with
      | none => .error .eof
      | some (chcntB, bs3) =>
        match readSizesLoop (u16dec2 chcntB) bs3 with
        | .error e => .error e
        | .ok (szs, _) => .ok (u16dec2 chlenB, szs)

/-- The subfield loop inside `Reader.readExtra`: scan the EXTRA payload for
subfields (SI1 SI2 LEN payload); the RA subfield is decoded by
`readExtraSizes` (a later RA subfield overrides an earlier one), every other
subfield is accumulated verbatim into the header's `Extra`.  `fuel` bounds
the iterations (each consumes at least four bytes). -/
def subfields : Nat → List Nat → Option (Nat × List Nat) → List Nat →
    Except PErr (Option (Nat × List Nat) × List Nat)
  | 0, _, acc, userExtra => .ok (acc, userExtra)
  | fuel + 1, er, acc, userExtra =>
    if er.isEmpty then .ok (acc, userExtra)
    else match readN 4 er with
    | none => .error .eof
    | some (hd, er1) =>
      match readN (u16dec (hd.getD 2 0) (hd.getD 3 0)) er1 with
      | none => .error .eof
      | some (payload, er2) =>
        if hd.getD 0 0 = 82 ∧ hd.getD 1 0 = 65 then
          match readExtraSizes payload with
          | .error e => .error e
          | .ok cs => subfields fuel er2 (some cs) userExtra
        else subfields fuel er2 acc (userExtra ++ hd ++ payload)

/-- `Reader.readExtra`: XLEN, then the XLEN-byte EXTRA payload (both
digested), then the subfield scan; fails if no RA subfield was present.
Returns (consumed, digest, chunk size, compressed chunk sizes, rest). -/
def readExtra (digest : Nat) (bs : List Nat) :
    Except PErr (Nat × Nat × Nat × List Nat × List Nat) :=
  match readN 2 bs with
  | none => .error .eof
  | some (xlenB, bs1) =>
    match readN (u16dec2 xlenB) bs1 with
    | none => .error .eof
    | some (extraBytes, bs2) =>
      match subfields extraBytes.length extraBytes none [] with
      | .error e => .error e
      | .ok (none, _) => .error .noRA
      | .ok (some (c, szs), _) =>
        .ok (2 + u16dec2 xlenB, crcUpdate (crcUpdate digest xlenB) extraBytes, c, szs, bs2)

/-- `Reader.readString`: read a zero-terminated string byte by byte; more
than 512 bytes including the terminator position is an error.  Returns the
raw bytes consumed (terminator included — they are all digested) and the
rest of the stream. -/
def readStringAux (seen : List Nat) : List Nat → Except PErr (List Nat × List Nat)
  | [] => if 512 ≤ seen.length then .error .strTooLong else .error .eof
  | b :: rest =>
    if 512 ≤ seen.length then .error .strTooLong
    else if b = 0 then .ok (seen ++ [b], rest)
    else readStringAux (seen ++ [b]) rest

/-- The optional NAME / COMMENT phase of `Reader.readHeader`: when the flag
bit is set, read a zero-terminated string and digest its raw bytes.
Returns (consumed, digest, rest). -/
def stringStep (present : Bool) (digest : Nat) (bs : List Nat) :
    Except PErr (Nat × Nat × List Nat) :=
  if present then
    match readStringAux [] bs with
    | .error e => .error e
    | .ok (raw, rest) => .ok (raw.length, crcUpdate digest raw, rest)
  else .ok (0, digest, bs)

/-- The optional FHCRC phase of `Reader.readHeader`: read the stored 16-bit
CRC and compare it with the low 16 bits of the running digest
(`uint16(z.digest.Sum32())`). -/
def crcStep (present : Bool) (digest : Nat) (bs : List Nat) :
    Except PErr (Nat × List Nat) :=
  if present then
    match readN 2 bs with
    | none => .error .eof
    | some (crcB, rest) =>
      if u16dec2 crcB ≠ (digest ^^^ 0xFFFFFFFF) % 65536 then .error .badCrc
      else .ok (2, rest)
  else .ok (0, bs)

/-- The offsets computation at the end of `Reader.readHeader`:
`offsets[0] = startOffset`, `offsets[i+1] = offsets[i] + sizes[i]`. -/
def mkOffsets (start : Nat) : List Nat → List Nat
  | [] => [start]
  | sz :: rest => start :: mkOffsets (start + sz) rest

/-- The result of a successful `Reader.readHeader`: the byte position
following the header, the chunk size, the compressed chunk sizes, the
derived offsets table, and the unconsumed remainder of the stream. -/
structure HdrOut where
  start : Nat
  chunkSize : Nat
  sizes : List Nat
  offsets : List Nat
  rest : List Nat
  deriving Repr, DecidableEq

/-- `Reader.readHeader`: lead-in and FLG, mandatory EXTRA field, optional
NAME, COMMENT and header-CRC phases, then the offsets table. -/
def readHeader (bs : List Nat) : Except PErr HdrOut :=
  match readFlg bs with
  | .error e => .error e
  | .ok (flg, r1) =>
    if flg &&& 4 = 0 then .error .noExtra
    else match readExtra crcInit r1 with
    | .error e => .error e
    | .ok (n2, d1, c, szs, r2) =>
      match stringStep (flg &&& 8 ≠ 0) d1 r2 with
      | .error e => .error e
      | .ok (n3, d2, r3) =>
        match stringStep (flg &&& 16 ≠ 0) d2 r3 with
        | .error e => .error e
        | .ok (n4, d3, r4) =>
          match crcStep (flg &&& 2 ≠ 0) d3 r4 with
          | .error e => .error e
          | .ok (n5, r5) =>
            .ok ⟨10 + n2 + n3 + n4 + n5, c, szs,
              mkOffsets (10 + n2 + n3 + n4 + n5) szs, r5⟩

/-- Reader state (`dictzip.Reader`): the underlying seekable byte stream,
the parsed chunk size and offsets table, and the uncompressed-stream cursor
(`z.offset`, an `int64`). -/
structure RState where
  file : List Nat
  chunkSize : Nat
  offsets : List Nat
  offset : Int
  deriving Repr, DecidableEq

/-- `NewReader` / `Reader.Reset`: seek to the start, parse the header, and
return a reader with cursor 0; any parse error yields no reader. -/
def newReaderFromBytes (bs : List Nat) : Except PErr RState :=
  match readHeader bs with
  | .error e => .error e
  | .ok h => .ok ⟨bs, h.chunkSize, h.offsets, 0⟩

/-- Result of `Reader.readChunk`: either a Go runtime panic (integer divide
by zero, negative or out-of-range index, negative `make` length) or the
returned byte slice together with whether the accompanying error was
`io.EOF` (`true`) or `nil` (`false`). -/
inductive RcResult
  | crash
  | bytes (out : List Nat) (eof : Bool)
  deriving Repr, DecidableEq

/-- `Reader.readChunk`: locate the chunk containing `off`, seek the
underlying stream to its compressed start, reset the inflater, decompress
`size` bytes plus the discarded prefix, and return the slice past the
prefix.  The read loop keeps reading until the requested count is reached or
the inflater reports end of stream, so it produces
`min chunkReadSize |avail|` bytes and reports `io.EOF` exactly when the
stream ran out first. -/
def readChunk (E : Engine) (r : RState) (off size : Int) : RcResult :=
  if r.chunkSize = 0 then .crash
  else
    let chunkNum : Int := off.tdiv r.chunkSize
    if (r.offsets.length : Int) ≤ chunkNum then .bytes [] true
    else if chunkNum < 0 then .crash
    else
      let chunkOffset := r.offsets.getD chunkNum.toNat 0
      let avail := E.decompress (r.file.drop chunkOffset)
      let readStart : Int := off - chunkNum * r.chunkSize
      let chunkReadSize : Int := size + readStart
      if chunkReadSize < 0 then .crash
      else
        let totalRead : Int := min chunkReadSize avail.length
        let eof := (avail.length : Int) < chunkReadSize
        if totalRead < readStart then .bytes [] eof
        else if readStart < 0 then .crash
        else .bytes ((avail.take totalRead.toNat).drop readStart.toNat) eof

/-- `Reader.Read`: read at the cursor, copy into the caller's buffer of
length `n`, and advance the cursor by the number of bytes copied.  `none`
models a runtime panic inside `readChunk`. -/
def ReaderRead (E : Engine) (r : RState) (n : Nat) :
    Option (List Nat × Bool × RState) :=
  match readChunk E r r.offset n with
  | .crash => none
  | .bytes out eof =>
    let copied := out.take n
    some (copied, eof, { r with offset := r.offset + copied.length })

/-- `Reader.ReadAt`: read at an arbitrary position, copying into the
caller's buffer of length `n`; the cursor is untouched. -/
def ReaderReadAt (E : Engine) (r : RState) (off : Int) (n : Nat) :
    Option (List Nat × Bool × RState) :=
  match readChunk E r off n with
  | .crash => none
  | .bytes out eof => some (out.take n, eof, r)

/-- The errors `Reader.Seek` can produce. -/
inductive SeekErr
  | negativeOffset
  | unsupportedSeek
  deriving Repr, DecidableEq

/-- `Reader.Seek`: whence 0 is `io.SeekStart`, 1 is `io.SeekCurrent`; any
other whence (including `io.SeekEnd = 2`) is unsupported.  Returns the
(possibly unchanged) cursor and the error alongside the new state. -/
def ReaderSeek (r : RState) (off : Int) (whence : Nat) :
    (Int × Option SeekErr) × RState :=
  if whence = 0 then
    if off < 0 then ((r.offset, some .negativeOffset), r)
    else ((off, none), { r with offset := off })
  else if whence = 1 then
    let newOffset := r.offset + off
    if newOffset < 0 then ((r.offset, some .negativeOffset), r)
    else ((newOffset, none), { r with offset := newOffset })
  else ((r.offset, some .unsupportedSeek), r)

/-- `io.ReadAll` over a dictzip reader: repeatedly `Read` with a buffer of
`bufSize` bytes, collecting the results, until a read reports end of
stream.  `none` models a panic or fuel exhaustion. -/
def readAllAux (E : Engine) : Nat → RState → Nat → List Nat → Option (List Nat)
  | 0, _, _, _ => none
  | fuel + 1, r, bufSize, acc =>
    match ReaderRead E r bufSize with
    | none => none
    | some (out, eof, r2) =>
      if eof then some (acc ++ out) else readAllAux E fuel r2 bufSize (acc ++ out)

/-- A concrete `Engine` instance: `compressChunk` stores the chunk verbatim,
the close marker is the out-of-band symbol 256, and decompression yields
everything up to the first out-of-band symbol. -/
def storeEngine : Engine where
  compressChunk := id
  closeMarker := [256]
  decompress bs := bs.takeWhile (fun b => b < 256)
  decompress_flushed := by
    intro chunks rest h
    simp only [List.map_id]
    generalize chunks.flatten = l at h ⊢
    induction l with
    | nil => simp [List.takeWhile_cons]
    | cons b l ih =>
      simp only [List.mem_cons, forall_eq_or_imp] at h
      simpa [List.takeWhile_cons, h.1] using ih h.2

/-! ### Basic lemmas about byte encodings, CRC accumulation and chunking -/

theorem u16le_length (n : Nat) : (u16le n).length = 2 := rfl

theorem u32le_length (n : Nat) : (u32le n).length = 4 := rfl

theorem u16dec2_u16le (n : Nat) (hn : n < 65536) : u16dec2 (u16le n) = n := by
  show n % 256 + 256 * (n / 256 % 256) = n
  omega

theorem crcUpdate_append (d : Nat) (a b : List Nat) :
    crcUpdate d (a ++ b) = crcUpdate (crcUpdate d a) b :=
  List.foldl_append crcByteStep d a b

theorem crcUpdate_nil (d : Nat) : crcUpdate d [] = d := rfl

theorem chunksOfAux_nil (c fuel : Nat) : chunksOfAux c fuel [] = [] := by
  cases fuel <;> rfl

theorem chunksOfAux_fuel (c : Nat) (hc : 1 ≤ c) :
    ∀ bound f D, List.length D ≤ f → f ≤ bound →
      chunksOfAux c f D = chunksOfAux c D.length D := by
  intro bound
  induction bound with
  | zero =>
    intro f D h1 h2
    have : f = 0 := by omega
    subst this
    have : D = [] := by cases D <;> simp_all
    subst this
    rfl
  | succ bound ih =>
    intro f D h1 h2
    match D, f with
    | [], f => rw [chunksOfAux_nil, chunksOfAux_nil]
    | d :: tl, g + 1 =>
      simp only [chunksOfAux, List.length_cons]
      have hdl : (List.drop c (d :: tl)).length ≤ tl.length := by
        simp only [List.length_drop, List.length_cons]
        omega
      rw [ih g (List.drop c (d :: tl)) (by simp only [List.length_cons] at h1; omega)
          (by omega),
        ih tl.length (List.drop c (d :: tl)) hdl
          (by simp only [List.length_cons] at h1; omega)]

theorem chunksOf_nil (c : Nat) : chunksOf c [] = [] := rfl

theorem chunksOf_cons (c : Nat) (hc : 1 ≤ c) (D : List Nat) (hD : D ≠ []) :
    chunksOf c D = D.take c :: chunksOf c (D.drop c) := by
  match D with
  | d :: tl =>
    show chunksOfAux c (tl.length + 1) (d :: tl) = _
    simp only [chunksOfAux]
    rw [chunksOf, chunksOfAux_fuel c hc tl.length tl.length (List.drop c (d :: tl))]
    · simp only [List.length_drop, List.length_cons]
      omega
    · exact le_refl _

theorem chunksOf_flatten (c : Nat) (hc : 1 ≤ c) (D : List Nat) :
    (chunksOf c D).flatten = D := by
  have H : ∀ n (D : List Nat), D.length ≤ n → (chunksOf c D).flatten = D := by
    intro n
    induction n with
    | zero =>
      intro D hD
      have : D = [] := by cases D <;> simp_all
      subst this
      rfl
    | succ n ih =>
      intro D hD
      match D with
      | [] => rfl
      | d :: tl =>
        rw [chunksOf_cons c hc _ (by simp)]
        simp only [List.flatten_cons]
        rw [ih (List.drop c (d :: tl))
          (by simp only [List.length_drop, List.length_cons] at *; omega)]
        exact List.take_append_drop c (d :: tl)
  exact H D.length D le_rfl

theorem chunksOf_length (c : Nat) (hc : 1 ≤ c) (D : List Nat) :
    (chunksOf c D).length = (D.length + c - 1) / c := by
  have H : ∀ n (D : List Nat), D.length ≤ n →
      (chunksOf c D).length = (D.length + c - 1) / c := by
    intro n
    induction n with
    | zero =>
      intro D hD
      have : D = [] := by cases D <;> simp_all
      subst this
      simp only [chunksOf_nil, List.length_nil]
      rw [Nat.div_eq_of_lt (show 0 + c - 1 < c by omega)]
    | succ n ih =>
      intro D hD
      match D with
      | [] =>
        simp only [chunksOf_nil, List.length_nil]
        rw [Nat.div_eq_of_lt (show 0 + c - 1 < c by omega)]
      | d :: tl =>
        rw [chunksOf_cons c hc _ (by simp), List.length_cons,
          ih (List.drop c (d :: tl))
            (by simp only [List.length_drop, List.length_cons] at *; omega)]
        simp only [List.length_drop, List.length_cons]
        rcases le_or_lt (tl.length + 1) c with h | h
        · have h1 : tl.length + 1 - c = 0 := by omega
          have h2 : tl.length + 1 + c - 1 = tl.length + c := by omega
          rw [h1, h2, Nat.add_div_right _ (by omega),
            Nat.div_eq_of_lt (show 0 + c - 1 < c by omega),
            Nat.div_eq_of_lt (show tl.length < c by omega)]
        · have heq : tl.length + 1 + c - 1 = (tl.length + 1 - c + c - 1) + c := by omega
          rw [heq, Nat.add_div_right _ (by omega)]
  exact H D.length D le_rfl

theorem chunksOf_drop (c : Nat) (hc : 1 ≤ c) (D : List Nat) (k : Nat) :
    (chunksOf c D).drop k = chunksOf c (D.drop (k * c)) := by
  induction k generalizing D with
  | zero => simp
  | succ k ih =>
    match D with
    | [] => simp [chunksOf_nil]
    | d :: tl =>
      rw [chunksOf_cons c hc _ (by simp), List.drop_succ_cons, ih (List.drop c (d :: tl)),
        List.drop_drop]
      congr 1
      ring_nf

/-! ### The writer loop: fuel invariance and the chunk-aligned invariant -/

theorem wstate_ext {a b : WState} (h1 : a.chunkSize = b.chunkSize)
    (h2 : a.pending = b.pending) (h3 : a.hasData = b.hasData) (h4 : a.tmp = b.tmp)
    (h5 : a.sizes = b.sizes) (h6 : a.digest = b.digest) (h7 : a.isize = b.isize)
    (h8 : a.closed = b.closed) (h9 : a.name = b.name) (h10 : a.comment = b.comment)
    (h11 : a.extra = b.extra) (h12 : a.os = b.os) (h13 : a.modTime = b.modTime)
    (h14 : a.level = b.level) : a = b := by
  cases a; cases b; simp_all

theorem flushCompressor_chunkSize (E : Engine) (s : WState) :
    (flushCompressor E s).chunkSize = s.chunkSize := by
  unfold flushCompressor
  split <;> rfl

theorem writeLoop_nil (E : Engine) (fuel : Nat) (s : WState) :
    writeLoop E fuel s [] = s := by
  cases fuel <;> rfl

theorem writeSlice_eq (E : Engine) (s : WState) (slice : List Nat) :
    writeSlice E s slice =
      if (writeStep s slice).isize % (writeStep s slice).chunkSize = 0 then
        flushCompressor E (writeStep s slice)
      else writeStep s slice := rfl

theorem writeSlice_chunkSize (E : Engine) (s : WState) (slice : List Nat) :
    (writeSlice E s slice).chunkSize = s.chunkSize := by
  rw [writeSlice_eq]
  split
  · rw [flushCompressor_chunkSize]
    rfl
  · rfl

theorem flushCompressor_closed (E : Engine) (s : WState) :
    (flushCompressor E s).closed = s.closed := by
  unfold flushCompressor
  split <;> rfl

theorem writeSlice_closed (E : Engine) (s : WState) (slice : List Nat) :
    (writeSlice E s slice).closed = s.closed := by
  rw [writeSlice_eq]
  split
  · rw [flushCompressor_closed]
    rfl
  · rfl

theorem writeLoop_cons (E : Engine) (fuel : Nat) (s : WState) (d : Nat) (tl : List Nat) :
    writeLoop E (fuel + 1) s (d :: tl) =
      writeLoop E fuel
        (writeSlice E s ((d :: tl).take (s.chunkSize - s.isize % s.chunkSize)))
        ((d :: tl).drop (s.chunkSize - s.isize % s.chunkSize)) := rfl

theorem writeLoop_fuel (E : Engine) :
    ∀ bound f1 f2 (s : WState) (D : List Nat), 1 ≤ s.chunkSize →
      D.length ≤ f1 → D.length ≤ f2 → f1 + f2 ≤ bound →
      writeLoop E f1 s D = writeLoop E f2 s D := by
  intro bound
  induction bound with
  | zero =>
    intro f1 f2 s D hc h1 h2 hb
    have hf1 : f1 = 0 := by omega
    have hf2 : f2 = 0 := by omega
    subst hf1; subst hf2
    rfl
  | succ bound ih =>
    intro f1 f2 s D hc h1 h2 hb
    match D, f1, f2 with
    | [], f1, f2 => rw [writeLoop_nil, writeLoop_nil]
    | d :: tl, g1 + 1, g2 + 1 =>
      rw [writeLoop_cons, writeLoop_cons]
      have hb1 : 1 ≤ s.chunkSize - s.isize % s.chunkSize := by
        have := Nat.mod_lt s.isize (show 0 < s.chunkSize by omega)
        omega
      have hrest : ((d :: tl).drop (s.chunkSize - s.isize % s.chunkSize)).length
          ≤ tl.length := by
        simp only [List.length_drop, List.length_cons]
        omega
      have htl1 : tl.length ≤ g1 := by
        simp only [List.length_cons] at h1
        omega
      have htl2 : tl.length ≤ g2 := by
        simp only [List.length_cons] at h2
        omega
      refine ih g1 g2 _ _ ?_ (le_trans hrest htl1) (le_trans hrest htl2) (by omega)
      rw [writeSlice_chunkSize]
      exact hc

theorem flush_writeStep (E : Engine) (s : WState) (slice : List Nat)
    (hp : s.pending = []) (hd : s.hasData = false) (hne : slice.isEmpty = false) :
    flushCompressor E (writeStep s slice) =
      { s with sizes := s.sizes ++ [(E.compressChunk slice).length],
               tmp := s.tmp ++ E.compressChunk slice,
               digest := crcUpdate s.digest slice,
               isize := s.isize + slice.length,
               pending := [], hasData := false } := by
  simp [flushCompressor, writeStep, hp, hd, hne]

theorem writeLoop_aligned (E : Engine) :
    ∀ n (D : List Nat) (s : WState) (fuel : Nat), D.length ≤ n → D.length ≤ fuel →
      1 ≤ s.chunkSize →
      s.pending = [] → s.hasData = false → s.isize % s.chunkSize = 0 →
      flushCompressor E (writeLoop E fuel s D) =
        { s with
          sizes := s.sizes ++
            (chunksOf s.chunkSize D).map (fun ch => (E.compressChunk ch).length),
          tmp := s.tmp ++ ((chunksOf s.chunkSize D).map E.compressChunk).flatten,
          digest := crcUpdate s.digest D,
          isize := s.isize + D.length,
          pending := [], hasData := false } := by
  intro n
  induction n with
  | zero =>
    intro D s fuel hD hf hc hp hd ha
    have : D = [] := by cases D <;> simp_all
    subst this
    simp only [writeLoop_nil, chunksOf_nil, List.map_nil, List.append_nil,
      List.flatten_nil, crcUpdate_nil, List.length_nil, Nat.add_zero]
    rw [flushCompressor, if_neg (by rw [hd]; exact Bool.false_ne_true)]
    exact wstate_ext rfl hp hd rfl rfl rfl rfl rfl rfl rfl rfl rfl rfl rfl
  | succ n ih =>
    intro D s fuel hD hf hc hp hd ha
    match D, fuel with
    | [], fuel =>
      simp only [writeLoop_nil, chunksOf_nil, List.map_nil, List.append_nil,
        List.flatten_nil, crcUpdate_nil, List.length_nil, Nat.add_zero]
      rw [flushCompressor, if_neg (by rw [hd]; exact Bool.false_ne_true)]
      exact wstate_ext rfl hp hd rfl rfl rfl rfl rfl rfl rfl rfl rfl rfl rfl
    | d :: tl, g + 1 =>
      have hcpos : 0 < s.chunkSize := hc
      have hbnd : s.chunkSize - s.isize % s.chunkSize = s.chunkSize := by
        rw [ha, Nat.sub_zero]
      obtain ⟨c1, hc1⟩ : ∃ c1, s.chunkSize = c1 + 1 := ⟨s.chunkSize - 1, by omega⟩
      have hne : ((d :: tl).take s.chunkSize).isEmpty = false := by
        rw [hc1, List.take_succ_cons]
        rfl
      rw [writeLoop_cons, hbnd]
      rcases le_or_lt s.chunkSize (tl.length + 1) with hlong | hshort
      · -- a full chunk is taken and flushed inside the loop
        have hslice : ((d :: tl).take s.chunkSize).length = s.chunkSize := by
          simp only [List.length_take, List.length_cons]
          omega
        have hflg : (writeStep s ((d :: tl).take s.chunkSize)).isize %
            (writeStep s ((d :: tl).take s.chunkSize)).chunkSize = 0 := by
          show (s.isize + ((d :: tl).take s.chunkSize).length) % s.chunkSize = 0
          rw [hslice, Nat.add_mod, ha, Nat.mod_self]
          simp
        rw [writeSlice_eq, if_pos hflg, flush_writeStep E s _ hp hd hne]
        have hdl : ((d :: tl).drop s.chunkSize).length = tl.length + 1 - s.chunkSize := by
          simp only [List.length_drop, List.length_cons]
        have hrec := ih ((d :: tl).drop s.chunkSize)
          { s with sizes := s.sizes ++ [(E.compressChunk ((d :: tl).take s.chunkSize)).length],
                   tmp := s.tmp ++ E.compressChunk ((d :: tl).take s.chunkSize),
                   digest := crcUpdate s.digest ((d :: tl).take s.chunkSize),
                   isize := s.isize + ((d :: tl).take s.chunkSize).length,
                   pending := [], hasData := false }
          g (by simp only [List.length_cons] at hD; omega)
          (by simp only [List.length_cons] at hf; omega) hc rfl rfl hflg
        rw [hrec]
        rw [chunksOf_cons s.chunkSize hc (d :: tl) (by simp)]
        refine wstate_ext rfl rfl rfl ?_ ?_ ?_ ?_ rfl rfl rfl rfl rfl rfl rfl
        · show (s.tmp ++ _) ++ _ = s.tmp ++ _
          rw [List.map_cons, List.flatten_cons, List.append_assoc]
        · show (s.sizes ++ _) ++ _ = s.sizes ++ _
          rw [List.map_cons, List.append_assoc]
          rfl
        · show crcUpdate (crcUpdate s.digest _) _ = crcUpdate s.digest (d :: tl)
          rw [← crcUpdate_append, List.take_append_drop]
        · show s.isize + ((d :: tl).take s.chunkSize).length +
            ((d :: tl).drop s.chunkSize).length = s.isize + (d :: tl).length
          rw [Nat.add_assoc, ← List.length_append, List.take_append_drop]
      · -- the final partial chunk: no flush inside the loop
        have hslice : (d :: tl).take s.chunkSize = d :: tl := by
          apply List.take_of_length_le
          simp only [List.length_cons]
          omega
        have hrest : (d :: tl).drop s.chunkSize = [] := by
          apply List.drop_eq_nil_of_le
          simp only [List.length_cons]
          omega
        have hflg : ¬ (writeStep s ((d :: tl).take s.chunkSize)).isize %
            (writeStep s ((d :: tl).take s.chunkSize)).chunkSize = 0 := by
          show ¬ (s.isize + ((d :: tl).take s.chunkSize).length) % s.chunkSize = 0
          obtain ⟨q, hq⟩ := Nat.dvd_of_mod_eq_zero ha
          rw [hslice, hq, Nat.add_comm, Nat.add_mul_mod_self_left,
            Nat.mod_eq_of_lt (by simp only [List.length_cons]; omega)]
          simp only [List.length_cons]
          omega
        rw [writeSlice_eq, if_neg hflg, hrest, writeLoop_nil, flush_writeStep E s _ hp hd hne]
        rw [chunksOf_cons s.chunkSize hc (d :: tl) (by simp), hrest, chunksOf_nil]
        refine wstate_ext rfl rfl rfl ?_ ?_ ?_ ?_ rfl rfl rfl rfl rfl rfl rfl
        · show s.tmp ++ _ = s.tmp ++ _
          rw [hslice]
          simp
        · show s.sizes ++ _ = s.sizes ++ _
          rw [hslice]
          simp
        · show crcUpdate s.digest _ = crcUpdate s.digest (d :: tl)
          rw [hslice]
        · show s.isize + ((d :: tl).take s.chunkSize).length = s.isize + (d :: tl).length
          rw [hslice]

theorem writeStep_append (s : WState) (a b : List Nat) :
    writeStep s (a ++ b) = writeStep (writeStep s a) b := by
  refine wstate_ext rfl ?_ ?_ rfl rfl ?_ ?_ rfl rfl rfl rfl rfl rfl rfl
  · show s.pending ++ (a ++ b) = (s.pending ++ a) ++ b
    rw [List.append_assoc]
  · show (s.hasData || !(a ++ b).isEmpty) = ((s.hasData || !a.isEmpty) || !b.isEmpty)
    cases a <;> simp
  · exact crcUpdate_append s.digest a b
  · show s.isize + (a ++ b).length = s.isize + a.length + b.length
    rw [List.length_append, Nat.add_assoc]

theorem foldl_writeByte_slice (E : Engine) :
    ∀ (x : List Nat) (s : WState), 1 ≤ s.chunkSize → x ≠ [] →
      x.length ≤ s.chunkSize - s.isize % s.chunkSize →
      x.foldl (writeByte E) s = writeSlice E s x := by
  intro x
  induction x with
  | nil => intro s _ hne _; exact absurd rfl hne
  | cons b y ih =>
    intro s hc hne hlen
    match y with
    | [] => rfl
    | e :: z =>
      have hr : s.isize % s.chunkSize < s.chunkSize :=
        Nat.mod_lt s.isize (by omega)
      have hlen2 : z.length + 2 ≤ s.chunkSize - s.isize % s.chunkSize := by
        simp only [List.length_cons] at hlen
        omega
      have hc2 : 1 < s.chunkSize := by omega
      have hmod1 : (s.isize + 1) % s.chunkSize = s.isize % s.chunkSize + 1 := by
        rw [Nat.add_mod, Nat.mod_eq_of_lt hc2, Nat.mod_eq_of_lt (by omega)]
      have hnoflush : ¬ (writeStep s [b]).isize % (writeStep s [b]).chunkSize = 0 := by
        show ¬ (s.isize + 1) % s.chunkSize = 0
        rw [hmod1]
        omega
      show List.foldl (writeByte E) (writeByte E s b) (e :: z) = _
      rw [writeByte, writeSlice_eq, if_neg hnoflush]
      rw [ih (writeStep s [b]) hc (by simp) (by
        show (e :: z).length ≤ s.chunkSize - (s.isize + 1) % s.chunkSize
        rw [hmod1]
        simp only [List.length_cons]
        omega)]
      have hsa := writeStep_append s [b] (e :: z)
      simp only [writeSlice_eq]
      rw [← hsa]
      rfl

theorem writeLoop_eq_foldl (E : Engine) :
    ∀ n (p : List Nat) (s : WState), p.length ≤ n → 1 ≤ s.chunkSize →
      writeLoop E (p.length + 1) s p = p.foldl (writeByte E) s := by
  intro n
  induction n with
  | zero =>
    intro p s hp hc
    have : p = [] := by cases p <;> simp_all
    subst this
    rfl
  | succ n ih =>
    intro p s hp hc
    match p with
    | [] => rfl
    | d :: tl =>
      have hr : s.isize % s.chunkSize < s.chunkSize := Nat.mod_lt s.isize (by omega)
      have hL : (d :: tl).length + 1 = (tl.length + 1) + 1 := rfl
      rw [hL, writeLoop_cons]
      have hkpos : 1 ≤ s.chunkSize - s.isize % s.chunkSize := by omega
      have htake : ((d :: tl).take (s.chunkSize - s.isize % s.chunkSize)).length ≤
          s.chunkSize - s.isize % s.chunkSize := by
        simp [List.length_take]
      have htkne : (d :: tl).take (s.chunkSize - s.isize % s.chunkSize) ≠ [] := by
        obtain ⟨k1, hk1⟩ : ∃ k1, s.chunkSize - s.isize % s.chunkSize = k1 + 1 :=
          ⟨s.chunkSize - s.isize % s.chunkSize - 1, by omega⟩
        rw [hk1, List.take_succ_cons]
        simp
      have hdlen : ((d :: tl).drop (s.chunkSize - s.isize % s.chunkSize)).length
          ≤ tl.length := by
        simp only [List.length_drop, List.length_cons]
        omega
      rw [writeLoop_fuel E (2 * tl.length + 4) (tl.length + 1)
        (((d :: tl).drop (s.chunkSize - s.isize % s.chunkSize)).length + 1)
        (writeSlice E s ((d :: tl).take (s.chunkSize - s.isize % s.chunkSize)))
        ((d :: tl).drop (s.chunkSize - s.isize % s.chunkSize))
        (by rw [writeSlice_chunkSize]; exact hc) (by omega) (by omega) (by omega)]
      rw [ih ((d :: tl).drop (s.chunkSize - s.isize % s.chunkSize)) _
        (by omega) (by rw [writeSlice_chunkSize]; exact hc)]
      rw [← foldl_writeByte_slice E _ s hc htkne htake, ← List.foldl_append,
        List.take_append_drop]

theorem foldl_writeByte_chunkSize (E : Engine) (p : List Nat) (s : WState) :
    (p.foldl (writeByte E) s).chunkSize = s.chunkSize := by
  induction p generalizing s with
  | nil => rfl
  | cons b y ih =>
    show (List.foldl (writeByte E) (writeByte E s b) y).chunkSize = s.chunkSize
    rw [ih, writeByte, writeSlice_chunkSize]

theorem foldl_writeByte_closed (E : Engine) (p : List Nat) (s : WState) :
    (p.foldl (writeByte E) s).closed = s.closed := by
  induction p generalizing s with
  | nil => rfl
  | cons b y ih =>
    show (List.foldl (writeByte E) (writeByte E s b) y).closed = s.closed
    rw [ih, writeByte, writeSlice_closed]

theorem writeData_eq_foldl (E : Engine) (s : WState) (p : List Nat)
    (hc : 1 ≤ s.chunkSize) (hcl : s.closed = false) :
    writeData E s p = p.foldl (writeByte E) s := by
  rw [writeData, if_neg (by rw [hcl]; exact Bool.false_ne_true),
    writeLoop_eq_foldl E p.length p s le_rfl hc]

theorem writeData_append (E : Engine) (s : WState) (a b : List Nat)
    (hc : 1 ≤ s.chunkSize) :
    writeData E s (a ++ b) = writeData E (writeData E s a) b := by
  rcases hcl : s.closed with hfalse | htrue
  · rw [writeData_eq_foldl E s (a ++ b) hc hcl, writeData_eq_foldl E s a hc hcl,
      writeData_eq_foldl E _ b
        (by rw [foldl_writeByte_chunkSize]; exact hc)
        (by rw [foldl_writeByte_closed]; exact hcl),
      List.foldl_append]
  · have h1 : writeData E s a = s := by rw [writeData, if_pos (by rw [hcl])]
    have h2 : writeData E s (a ++ b) = s := by rw [writeData, if_pos (by rw [hcl])]
    have h3 : writeData E s b = s := by rw [writeData, if_pos (by rw [hcl])]
    rw [h1, h2, h3]

theorem writeMany_flatten (E : Engine) (parts : List (List Nat)) (s : WState)
    (hc : 1 ≤ s.chunkSize) :
    writeMany E s parts = writeData E s parts.flatten := by
  induction parts generalizing s with
  | nil =>
    show s = writeData E s []
    rcases hcl : s.closed with hfalse | htrue
    · rw [writeData_eq_foldl E s [] hc hcl]
      rfl
    · rw [writeData, if_pos (by rw [hcl])]
  | cons p ps ih =>
    show writeMany E (writeData E s p) ps = writeData E s (p ++ ps.flatten)
    rw [writeData_append E s p ps.flatten hc]
    apply ih
    rcases hcl : s.closed with hfalse | htrue
    · rw [writeData_eq_foldl E s p hc hcl, foldl_writeByte_chunkSize]
      exact hc
    · rw [writeData, if_pos (by rw [hcl])]
      exact hc

/-! ### Parsing: `readN` and exact-shape lemmas for well-formed headers -/

theorem readN_exact (n : Nat) (a b : List Nat) (h : a.length = n) :
    readN n (a ++ b) = some (a, b) := by
  subst h
  rw [readN, if_pos (by simp), List.take_left, List.drop_left]

theorem readN_some (n : Nat) (bs x r : List Nat) (h : readN n bs = some (x, r)) :
    x = bs.take n ∧ r = bs.drop n ∧ n ≤ bs.length := by
  rw [readN] at h
  split at h
  · simp only [Option.some.injEq, Prod.mk.injEq] at h
    exact ⟨h.1.symm, h.2.symm, by assumption⟩
  · simp at h

theorem subfields_nil (fuel : Nat) (acc : Option (Nat × List Nat)) (ue : List Nat) :
    subfields fuel [] acc ue = .ok (acc, ue) := by
  cases fuel <;> rfl

theorem readFlg_bytes (flg m0 m1 m2 m3 xfl os : Nat) (rest : List Nat) :
    readFlg ([31, 139, 8, flg, m0, m1, m2, m3, xfl, os] ++ rest) = .ok (flg, rest) := by
  have h := readN_exact 10 [31, 139, 8, flg, m0, m1, m2, m3, xfl, os] rest rfl
  rw [readFlg, h]
  simp [List.getD]

theorem readSizesLoop_exact (szs : List Nat) (rest : List Nat)
    (h : ∀ sz ∈ szs, sz < 65536) :
    readSizesLoop szs.length ((szs.map u16le).flatten ++ rest) = .ok (szs, rest) := by
  induction szs with
  | nil => rfl
  | cons sz tl ih =>
    show readSizesLoop (tl.length + 1) ((u16le sz ++ (tl.map u16le).flatten) ++ rest) = _
    rw [List.append_assoc]
    simp only [readSizesLoop, readN_exact 2 (u16le sz) _ rfl,
      ih (fun x hx => h x (List.mem_cons_of_mem sz hx)),
      u16dec2_u16le sz (h sz (List.mem_cons_self sz tl))]

theorem readExtraSizes_exact (c : Nat) (szs : List Nat) (hc : c < 65536)
    (hn : szs.length < 65536) (h : ∀ sz ∈ szs, sz < 65536) :
    readExtraSizes (u16le 1 ++ (u16le c ++ (u16le szs.length ++ (szs.map u16le).flatten)))
      = .ok (c, szs) := by
  have hloop := readSizesLoop_exact szs [] h
  rw [List.append_nil] at hloop
  simp only [readExtraSizes, readN_exact 2 (u16le 1) _ rfl,
    readN_exact 2 (u16le c) _ rfl, readN_exact 2 (u16le szs.length) _ rfl,
    u16dec2_u16le 1 (by omega), u16dec2_u16le c hc, u16dec2_u16le szs.length hn, hloop,
    ne_eq, not_true_eq_false, if_false]

theorem subfields_ra (fuel : Nat) (raLen : Nat) (payload : List Nat)
    (ue : List Nat) (cs : Nat × List Nat)
    (hf : 1 ≤ fuel) (hlen : payload.length = raLen) (hra : raLen < 65536)
    (hok : readExtraSizes payload = .ok cs) :
    subfields fuel ([82, 65] ++ (u16le raLen ++ payload)) none ue = .ok (some cs, ue) := by
  match fuel with
  | f + 1 =>
    have h4 : ([82, 65] ++ u16le raLen).length = 4 := by
      simp [u16le]
    have hr4 : readN 4 (([82, 65] ++ u16le raLen) ++ payload) =
        some ([82, 65] ++ u16le raLen, payload) := readN_exact 4 _ _ h4
    rw [← List.append_assoc] at *
    have hdec : u16dec (([82, 65] ++ u16le raLen).getD 2 0)
        (([82, 65] ++ u16le raLen).getD 3 0) = raLen := by
      show raLen % 256 + 256 * (raLen / 256 % 256) = raLen
      omega
    have hpay : readN raLen payload = some (payload, []) := by
      have := readN_exact raLen payload [] hlen
      rwa [List.append_nil] at this
    have hemp : (([82, 65] ++ u16le raLen) ++ payload).isEmpty = false := by simp
    simp only [subfields, hr4, hdec, hpay, hok, subfields_nil, hemp, Bool.false_eq_true,
      if_false]
    simp [hok, subfields_nil]

theorem readExtra_exact (d : Nat) (xlen raLen c : Nat) (szs : List Nat)
    (payload rest : List Nat)
    (hxlen : xlen = 4 + raLen) (hpl : payload.length = raLen) (hxb : xlen < 65536)
    (hok : readExtraSizes payload = .ok (c, szs)) :
    readExtra d (u16le xlen ++ (([82, 65] ++ (u16le raLen ++ payload)) ++ rest)) =
      .ok (2 + xlen, crcUpdate (crcUpdate d (u16le xlen)) ([82, 65] ++ (u16le raLen ++ payload)),
        c, szs, rest) := by
  have hlen : ([82, 65] ++ (u16le raLen ++ payload)).length = xlen := by
    simp only [List.length_append, hpl]
    show 2 + (2 + raLen) = xlen
    omega
  have hra := subfields_ra xlen raLen payload [] (c, szs) (by omega) hpl (by omega) hok
  simp only [readExtra, readN_exact 2 (u16le xlen) _ rfl, u16dec2_u16le xlen hxb,
    readN_exact xlen ([82, 65] ++ (u16le raLen ++ payload)) rest hlen, hlen, hra]

theorem stringStep_false (d : Nat) (bs : List Nat) :
    stringStep false d bs = .ok (0, d, bs) := rfl

theorem crcStep_false (d : Nat) (bs : List Nat) :
    crcStep false d bs = .ok (0, bs) := rfl

/-- Parsing the header a default (no name, no comment, no user extra) writer
emits: FLG is exactly FEXTRA, the EXTRA field holds only the RA subfield. -/
theorem readHeader_archive (c : Nat) (szs : List Nat) (xfl os : Nat) (body : List Nat)
    (hc : c < 65536) (hszs : ∀ sz ∈ szs, sz < 65536) (hxlen : 10 + 2 * szs.length ≤ 65535) :
    readHeader ([31, 139, 8, 4, 0, 0, 0, 0, xfl, os] ++
        (u16le (10 + 2 * szs.length) ++ (([82, 65] ++ (u16le (6 + 2 * szs.length) ++
          (u16le 1 ++ (u16le c ++ (u16le szs.length ++ (szs.map u16le).flatten))))) ++ body)))
      = .ok ⟨22 + 2 * szs.length, c, szs,
          mkOffsets (22 + 2 * szs.length) szs, body⟩ := by
  have hpl : (u16le 1 ++ (u16le c ++ (u16le szs.length ++ (szs.map u16le).flatten))).length
      = 6 + 2 * szs.length := by
    simp only [List.length_append, u16le_length, List.length_flatten, List.map_map]
    have hsum : ∀ l : List Nat, (l.map (List.length ∘ u16le)).sum = 2 * l.length := by
      intro l
      induction l with
      | nil => rfl
      | cons a tl ih =>
        simp only [List.map_cons, List.sum_cons, ih, Function.comp_apply, u16le_length,
          List.length_cons]
        omega
    rw [hsum]
    omega
  have hn : szs.length < 65536 := by omega
  have hex := readExtra_exact crcInit (10 + 2 * szs.length) (6 + 2 * szs.length) c szs
    (u16le 1 ++ (u16le c ++ (u16le szs.length ++ (szs.map u16le).flatten))) body
    (by omega) hpl (by omega) (readExtraSizes_exact c szs hc hn hszs)
  simp only [readHeader, readFlg_bytes, hex,
    show ((4 : Nat) &&& 4 = 0) = False by simp,
    show (decide ((4 : Nat) &&& 8 ≠ 0)) = false by decide,
    show (decide ((4 : Nat) &&& 16 ≠ 0)) = false by decide,
    show (decide ((4 : Nat) &&& 2 ≠ 0)) = false by decide,
    stringStep_false, crcStep_false, if_false]
  have harith : 10 + (2 + (10 + 2 * szs.length)) + 0 + 0 + 0 = 22 + 2 * szs.length := by omega
  rw [harith]

/-! ### The offsets table -/

theorem mkOffsets_length (st : Nat) (szs : List Nat) :
    (mkOffsets st szs).length = szs.length + 1 := by
  induction szs generalizing st with
  | nil => rfl
  | cons sz tl ih => simp [mkOffsets, ih]

theorem mkOffsets_getD (szs : List Nat) :
    ∀ (st i : Nat), i ≤ szs.length →
      (mkOffsets st szs).getD i 0 = st + (szs.take i).sum := by
  induction szs with
  | nil =>
    intro st i hi
    have : i = 0 := by simpa using hi
    subst this
    rfl
  | cons sz tl ih =>
    intro st i hi
    match i with
    | 0 => rfl
    | j + 1 =>
      show (mkOffsets (st + sz) tl).getD j 0 = _
      rw [ih (st + sz) j (by simpa using hi)]
      simp only [List.take_succ_cons, List.sum_cons]
      omega

theorem mkOffsets_mem_ge (szs : List Nat) :
    ∀ (st : Nat), ∀ x ∈ mkOffsets st szs, st ≤ x := by
  induction szs with
  | nil =>
    intro st x hx
    simp only [mkOffsets, List.mem_singleton] at hx
    omega
  | cons sz tl ih =>
    intro st x hx
    simp only [mkOffsets, List.mem_cons] at hx
    rcases hx with rfl | hx
    · exact le_refl x
    · have := ih (st + sz) x hx
      omega

theorem mkOffsets_pairwise (szs : List Nat) :
    ∀ st : Nat, (mkOffsets st szs).Pairwise (· ≤ ·) := by
  induction szs with
  | nil => intro st; simp [mkOffsets]
  | cons sz tl ih =>
    intro st
    rw [mkOffsets]
    refine List.Pairwise.cons ?_ (ih (st + sz))
    intro x hx
    have := mkOffsets_mem_ge tl (st + sz) x hx
    omega

/-! ### Byte accounting of the header parser -/

theorem readFlg_consumed (bs : List Nat) (flg : Nat) (r : List Nat)
    (h : readFlg bs = .ok (flg, r)) : 10 + r.length = bs.length := by
  rw [readFlg] at h
  split at h
  · exact absurd h (by simp)
  · rename_i heq
    obtain ⟨hx, hr, hlen⟩ := readN_some _ _ _ _ heq
    split at h
    · exact absurd h (by simp)
    · split at h
      · exact absurd h (by simp)
      · simp only [Except.ok.injEq, Prod.mk.injEq] at h
        rw [← h.2, hr, List.length_drop]
        omega

theorem readExtra_consumed (d : Nat) (bs : List Nat) (n d2 c : Nat) (szs r : List Nat)
    (h : readExtra d bs = .ok (n, d2, c, szs, r)) : n + r.length = bs.length := by
  rw [readExtra] at h
  split at h
  · exact absurd h (by simp)
  · rename_i heq
    obtain ⟨hx1, hr1, hlen1⟩ := readN_some _ _ _ _ heq
    split at h
    · exact absurd h (by simp)
    · rename_i heq2
      obtain ⟨hx2, hr2, hlen2⟩ := readN_some _ _ _ _ heq2
      split at h
      · exact absurd h (by simp)
      · exact absurd h (by simp)
      · simp only [Except.ok.injEq, Prod.mk.injEq] at h
        obtain ⟨hn, _, _, _, hrr⟩ := h
        rw [← hn, ← hrr, hr2, hr1]
        rw [hr1] at hlen2
        simp only [List.length_drop] at *
        omega

theorem readStringAux_consumed :
    ∀ (bs seen raw r : List Nat), readStringAux seen bs = .ok (raw, r) →
      raw.length + r.length = seen.length + bs.length ∧ seen.length ≤ raw.length := by
  intro bs
  induction bs with
  | nil =>
    intro seen raw r h
    rw [readStringAux] at h
    split at h <;> exact absurd h (by simp)
  | cons b rest ih =>
    intro seen raw r h
    rw [readStringAux] at h
    split at h
    · exact absurd h (by simp)
    · split at h
      · simp only [Except.ok.injEq, Prod.mk.injEq] at h
        obtain ⟨hraw, hr⟩ := h
        constructor
        · rw [← hraw, ← hr]
          simp only [List.length_append, List.length_cons, List.length_nil]
          omega
        · rw [← hraw]
          simp
      · obtain ⟨h1, h2⟩ := ih (seen ++ [b]) raw r h
        simp only [List.length_append, List.length_cons, List.length_nil] at h1 h2
        constructor
        · simp only [List.length_cons]
          omega
        · omega

theorem stringStep_consumed (present : Bool) (d : Nat) (bs : List Nat)
    (n d2 : Nat) (r : List Nat) (h : stringStep present d bs = .ok (n, d2, r)) :
    n + r.length = bs.length := by
  rw [stringStep] at h
  split at h
  · split at h
    · exact absurd h (by simp)
    · rename_i heq
      obtain ⟨h1, _⟩ := readStringAux_consumed _ _ _ _ heq
      simp only [List.length_nil, Nat.zero_add] at h1
      simp only [Except.ok.injEq, Prod.mk.injEq] at h
      obtain ⟨hn, _, hr⟩ := h
      rw [← hn, ← hr]
      omega
  · simp only [Except.ok.injEq, Prod.mk.injEq] at h
    obtain ⟨hn, _, hr⟩ := h
    rw [← hn, ← hr]
    simp

theorem crcStep_consumed (present : Bool) (d : Nat) (bs : List Nat)
    (n : Nat) (r : List Nat) (h : crcStep present d bs = .ok (n, r)) :
    n + r.length = bs.length := by
  rw [crcStep] at h
  split at h
  · split at h
    · exact absurd h (by simp)
    · rename_i heq
      obtain ⟨_, hr, hlen⟩ := readN_some _ _ _ _ heq
      split at h
      · exact absurd h (by simp)
      · simp only [Except.ok.injEq, Prod.mk.injEq] at h
        obtain ⟨hn, hrr⟩ := h
        rw [← hn, ← hrr, hr, List.length_drop]
        omega
  · simp only [Except.ok.injEq, Prod.mk.injEq] at h
    obtain ⟨hn, hr⟩ := h
    rw [← hn, ← hr]
    simp

theorem readHeader_consumed (bs : List Nat) (h : HdrOut)
    (hok : readHeader bs = .ok h) :
    h.offsets = mkOffsets h.start h.sizes ∧ h.start + h.rest.length = bs.length := by
  rw [readHeader] at hok
  split at hok
  · exact absurd hok (by simp)
  · rename_i heq1
    have hc1 := readFlg_consumed _ _ _ heq1
    split at hok
    · exact absurd hok (by simp)
    · split at hok
      · exact absurd hok (by simp)
      · rename_i heq2
        have hc2 := readExtra_consumed _ _ _ _ _ _ _ heq2
        split at hok
        · exact absurd hok (by simp)
        · rename_i heq3
          have hc3 := stringStep_consumed _ _ _ _ _ _ heq3
          split at hok
          · exact absurd hok (by simp)
          · rename_i heq4
            have hc4 := stringStep_consumed _ _ _ _ _ _ heq4
            split at hok
            · exact absurd hok (by simp)
            · rename_i heq5
              have hc5 := crcStep_consumed _ _ _ _ _ heq5
              obtain ⟨hst, hcs, hsz, hoffs, hrest⟩ := h
              simp only [Except.ok.injEq, HdrOut.mk.injEq] at hok
              obtain ⟨e1, e2, e3, e4, e5⟩ := hok
              constructor
              · show hoffs = mkOffsets hst hsz
                rw [← e4, ← e1, ← e3]
              · show hst + hrest.length = bs.length
                rw [← e1, ← e5]
                omega

/-! ### Locating a chunk inside the archive body -/

theorem flatten_drop_sum (k : Nat) :
    ∀ L : List (List Nat),
      (L.flatten).drop (((L.take k).map List.length).sum) = (L.drop k).flatten := by
  induction k with
  | zero => intro L; simp
  | succ k ih =>
    intro L
    match L with
    | [] => simp
    | x :: tl =>
      simp only [List.take_succ_cons, List.map_cons, List.sum_cons, List.flatten_cons,
        List.drop_succ_cons]
      rw [← ih tl, List.drop_append]

theorem sum_take_le (l : List Nat) : ∀ k, (l.take k).sum ≤ l.sum := by
  induction l with
  | nil => intro k; simp
  | cons x tl ih =>
    intro k
    match k with
    | 0 => simp
    | j + 1 =>
      simp only [List.take_succ_cons, List.sum_cons]
      exact Nat.add_le_add_left (ih j) x

theorem sizes_take_sum (f : List Nat → List Nat) (chunks : List (List Nat)) (k : Nat) :
    ((chunks.map (fun ch => (f ch).length)).take k).sum
      = (((chunks.take k).map f).flatten).length := by
  rw [List.length_flatten, List.map_map, ← List.map_take]
  rfl

theorem readChunk_archive (E : Engine) (c : Nat) (D hdr tail2 : List Nat) (cur : Int)
    (p n : Nat) (hc : 1 ≤ c) (hD : ∀ b ∈ D, b < 256) (hp : p ≤ D.length) :
    readChunk E
      ⟨hdr ++ (((chunksOf c D).map E.compressChunk).flatten ++ (E.closeMarker ++ tail2)),
       c,
       mkOffsets hdr.length ((chunksOf c D).map (fun ch => (E.compressChunk ch).length)),
       cur⟩ (p : Int) (n : Int)
      = .bytes ((D.drop p).take n) (decide (D.length < p + n)) := by
  obtain ⟨k, hk⟩ : ∃ k, k = p / c := ⟨p / c, rfl⟩
  have hflat : (chunksOf c D).flatten = D := chunksOf_flatten c hc D
  have hkb : k ≤ (chunksOf c D).length := by
    rw [hk, chunksOf_length c hc D]
    exact le_trans (Nat.div_le_div_right hp) (Nat.div_le_div_right (by omega))
  have hkc : k * c ≤ p := by
    rw [hk]
    exact Nat.div_mul_le_self p c
  have hpk : p < k * c + c := by
    rw [hk]
    have h1 : p % c < c := Nat.mod_lt p (by omega)
    calc p = c * (p / c) + p % c := (Nat.div_add_mod p c).symm
      _ < c * (p / c) + c := Nat.add_lt_add_left h1 _
      _ = p / c * c + c := by rw [Nat.mul_comm]
  -- the offsets entry for the chunk containing p
  have hoffs : (mkOffsets hdr.length
        ((chunksOf c D).map (fun ch => (E.compressChunk ch).length))).getD k 0
      = hdr.length +
        (((chunksOf c D).take k).map E.compressChunk).flatten.length := by
    rw [mkOffsets_getD _ hdr.length k (by rw [List.length_map]; exact hkb),
      sizes_take_sum]
  have hsum_le : (((chunksOf c D).take k).map E.compressChunk).flatten.length
      ≤ ((chunksOf c D).map E.compressChunk).flatten.length := by
    rw [← sizes_take_sum, List.length_flatten, List.map_map]
    exact sum_take_le ((chunksOf c D).map (fun ch => (E.compressChunk ch).length)) k
  have hdrop : (hdr ++ (((chunksOf c D).map E.compressChunk).flatten ++
        (E.closeMarker ++ tail2))).drop
        (hdr.length + (((chunksOf c D).take k).map E.compressChunk).flatten.length)
      = (((chunksOf c D).drop k).map E.compressChunk).flatten ++
        (E.closeMarker ++ tail2) := by
    rw [List.drop_append, List.drop_append_of_le_length hsum_le]
    congr 1
    rw [show (((chunksOf c D).take k).map E.compressChunk).flatten.length
        = (((((chunksOf c D).map E.compressChunk)).take k).map List.length).sum by
      rw [List.length_flatten, List.map_take]]
    rw [flatten_drop_sum k ((chunksOf c D).map E.compressChunk), ← List.map_drop]
  have hbytes : ∀ b ∈ ((chunksOf c D).drop k).flatten, b < 256 := by
    intro b hb
    apply hD
    rw [← hflat]
    rw [List.mem_flatten] at hb ⊢
    obtain ⟨l, hl, hbl⟩ := hb
    exact ⟨l, List.mem_of_mem_drop hl, hbl⟩
  have havail : E.decompress ((((chunksOf c D).drop k).map E.compressChunk).flatten ++
        (E.closeMarker ++ tail2)) = D.drop (k * c) := by
    rw [← List.append_assoc,
      E.decompress_flushed ((chunksOf c D).drop k) tail2 hbytes,
      chunksOf_drop c hc D k, chunksOf_flatten c hc]
  -- now evaluate readChunk
  simp only [readChunk]
  rw [if_neg (by omega : ¬ c = 0)]
  have htd : (p : Int).tdiv (c : Int) = ((k : Nat) : Int) := by
    rw [hk]
    rfl
  rw [htd]
  rw [if_neg (by
    rw [mkOffsets_length, List.length_map]
    omega)]
  rw [if_neg (by omega)]
  rw [show ((k : Nat) : Int).toNat = k from rfl]
  rw [hoffs, hdrop, havail]
  rw [if_neg (by omega)]
  have hlen_avail : (D.drop (k * c)).length = D.length - k * c := by
    rw [List.length_drop]
  rw [if_neg (by rw [hlen_avail]; omega)]
  rw [if_neg (by omega)]
  -- the returned slice
  have htr : (min ((n : Int) + ((p : Int) - ((k : Nat) : Int) * (c : Int)))
        ((D.drop (k * c)).length : Int)).toNat
      = min (n + (p - k * c)) (D.length - k * c) := by
    rw [hlen_avail]
    omega
  have hrst : ((p : Int) - ((k : Nat) : Int) * (c : Int)).toNat = p - k * c := by
    omega
  rw [htr, hrst]
  have hslice : ((D.drop (k * c)).take (min (n + (p - k * c))
        (D.length - k * c))).drop (p - k * c) = (D.drop p).take n := by
    rcases le_or_lt (n + (p - k * c)) (D.length - k * c) with hle | hgt
    · rw [min_eq_left hle,
        show n + (p - k * c) = (p - k * c) + n by omega,
        List.drop_take, Nat.add_sub_cancel_left, List.drop_drop,
        Nat.add_sub_cancel' hkc]
    · rw [min_eq_right (by omega), ← hlen_avail, List.take_length, List.drop_drop,
        List.take_of_length_le (by rw [List.length_drop]; omega),
        Nat.add_sub_cancel' hkc]
  rw [hslice]
  congr 1
  rw [decide_eq_decide, hlen_avail]
  omega

theorem readAllAux_archive (E : Engine) (c : Nat) (D hdr tail2 : List Nat)
    (bufSize : Nat) (hc : 1 ≤ c) (hD : ∀ b ∈ D, b < 256) (hb : 1 ≤ bufSize) :
    ∀ (fuel p : Nat) (acc : List Nat), p ≤ D.length → D.length - p < fuel * bufSize →
      readAllAux E fuel
        ⟨hdr ++ (((chunksOf c D).map E.compressChunk).flatten ++ (E.closeMarker ++ tail2)),
         c,
         mkOffsets hdr.length ((chunksOf c D).map (fun ch => (E.compressChunk ch).length)),
         (p : Int)⟩ bufSize acc = some (acc ++ D.drop p) := by
  intro fuel
  induction fuel with
  | zero =>
    intro p acc hp hfuel
    omega
  | succ fuel ih =>
    intro p acc hp hfuel
    simp only [readAllAux, ReaderRead]
    rw [readChunk_archive E c D hdr tail2 ((p : Nat) : Int) p bufSize hc hD hp]
    simp only [List.take_take, Nat.min_self]
    have hlen : ((D.drop p).take bufSize).length = min bufSize (D.length - p) := by
      rw [List.length_take, List.length_drop]
    rcases Nat.lt_or_ge D.length (p + bufSize) with hlt | hge
    · rw [if_pos (by simpa using hlt)]
      rw [List.take_of_length_le (by rw [List.length_drop]; omega)]
    · rw [if_neg (by simpa using hge)]
      have hmin : min bufSize (D.length - p) = bufSize := by omega
      have hoff : ((p : Nat) : Int) + (((D.drop p).take bufSize).length : Nat) =
          (((p + bufSize : Nat)) : Int) := by
        rw [hlen, hmin]
        push_cast
        ring
      rw [hoff]
      rw [ih (p + bufSize) (acc ++ (D.drop p).take bufSize) (by omega)
        (by rw [Nat.succ_mul] at hfuel; omega)]
      rw [List.append_assoc]
      congr 1
      rw [← List.drop_drop, List.take_append_drop]

theorem flush_writeData_newWriter (E : Engine) (c : Nat) (lvl : Int) (D : List Nat)
    (hc : 1 ≤ c) :
    flushCompressor E (writeData E (newWriter c lvl) D) =
      { newWriter c lvl with
        sizes := (chunksOf c D).map (fun ch => (E.compressChunk ch).length),
        tmp := ((chunksOf c D).map E.compressChunk).flatten,
        digest := crcUpdate crcInit D,
        isize := D.length } := by
  have h := writeLoop_aligned E D.length D (newWriter c lvl) (D.length + 1) le_rfl
    (Nat.le_succ _) hc rfl rfl (Nat.zero_mod c)
  rw [writeData, if_neg (by exact Bool.false_ne_true), h]
  exact wstate_ext rfl rfl rfl rfl rfl rfl (Nat.zero_add _) rfl rfl rfl rfl rfl rfl rfl

theorem flush_writeData_newWriter_explicit (E : Engine) (c : Nat) (lvl : Int)
    (D : List Nat) (hc : 1 ≤ c) :
    flushCompressor E (writeData E (newWriter c lvl) D) =
      { chunkSize := c, pending := [], hasData := false,
        tmp := ((chunksOf c D).map E.compressChunk).flatten,
        sizes := (chunksOf c D).map (fun ch => (E.compressChunk ch).length),
        digest := crcUpdate crcInit D, isize := D.length, closed := false,
        name := [], comment := [], extra := [], os := 0xff, modTime := 0,
        level := lvl } := by
  rw [flush_writeData_newWriter E c lvl D hc]
  exact wstate_ext rfl rfl rfl rfl rfl rfl rfl rfl rfl rfl rfl rfl rfl rfl

theorem writeExtra_ok (s : WState) (hext : s.extra = [])
    (hc2 : s.chunkSize ≤ 65535) (hcnt : s.sizes.length ≤ 65535)
    (hxlen : 10 + 2 * s.sizes.length ≤ 65535)
    (hszs : ∀ sz ∈ s.sizes, sz ≤ 65535) :
    writeExtra s = .ok (u16le (10 + 2 * s.sizes.length) ++ [82, 65] ++
      u16le (6 + 2 * s.sizes.length) ++ u16le 1 ++ u16le s.chunkSize ++
      u16le s.sizes.length ++ (s.sizes.map u16le).flatten ++ []) := by
  simp only [writeExtra, hext, List.length_nil]
  rw [if_neg (by omega), if_neg (by omega), if_neg (by omega),
    if_neg (by
      intro hany
      rw [List.any_eq_true] at hany
      obtain ⟨sz, hsz, hgt⟩ := hany
      rw [decide_eq_true_eq] at hgt
      exact absurd (hszs sz hsz) (by omega))]
  have h1 : 4 + (6 + s.sizes.length * 2) + 0 = 10 + 2 * s.sizes.length := by omega
  have h2 : 6 + s.sizes.length * 2 = 6 + 2 * s.sizes.length := by omega
  rw [h1, h2]

theorem writeHeaderBytes_ok (s : WState) (e : List Nat) (hname : s.name = [])
    (hcomment : s.comment = []) (hmod : s.modTime = 0)
    (hext : writeExtra s = .ok e) :
    writeHeaderBytes s = .ok ([31, 139, 8, 4] ++ [0, 0, 0, 0] ++
      [xflByte s, s.os] ++ e ++ [] ++ []) := by
  have hflg : flgByte s = 4 := by
    rw [flgByte, hname, hcomment]
    rfl
  have hmt : mtimeBytes s = [0, 0, 0, 0] := by
    rw [mtimeBytes, hmod]
    rfl
  rw [writeHeaderBytes, hext, hname, hcomment, hflg, hmt]
  rfl

theorem closeW_writeData_ok (E : Engine) (c : Nat) (lvl : Int) (D : List Nat)
    (hc : 1 ≤ c) (hc2 : c ≤ 65535)
    (hcnt : (chunksOf c D).length ≤ 65535)
    (hxlen : 10 + 2 * (chunksOf c D).length ≤ 65535)
    (hszs : ∀ ch ∈ chunksOf c D, (E.compressChunk ch).length ≤ 65535) :
    closeW E (writeData E (newWriter c lvl) D) =
      .ok ([31, 139, 8, 4, 0, 0, 0, 0, xflByte (newWriter c lvl), 255] ++
        (u16le (10 + 2 * ((chunksOf c D).map (fun ch => (E.compressChunk ch).length)).length) ++
         (([82, 65] ++
           (u16le (6 + 2 * ((chunksOf c D).map (fun ch => (E.compressChunk ch).length)).length) ++
            (u16le 1 ++
             (u16le c ++
              (u16le ((chunksOf c D).map (fun ch => (E.compressChunk ch).length)).length ++
               (((chunksOf c D).map (fun ch => (E.compressChunk ch).length)).map u16le).flatten))))) ++
          (((chunksOf c D).map E.compressChunk).flatten ++
           (E.closeMarker ++
            (u32le (crc32 D) ++ u32le (D.length % 2 ^ 32))))))) := by
  have hclosed : (writeData E (newWriter c lvl) D).closed = false := by
    rw [writeData_eq_foldl E (newWriter c lvl) D hc rfl, foldl_writeByte_closed]
    rfl
  have hE := writeExtra_ok
    { chunkSize := c, pending := [], hasData := false,
      tmp := ((chunksOf c D).map E.compressChunk).flatten,
      sizes := (chunksOf c D).map (fun ch => (E.compressChunk ch).length),
      digest := crcUpdate crcInit D, isize := D.length, closed := false,
      name := [], comment := [], extra := [], os := 0xff, modTime := 0,
      level := lvl }
    rfl hc2 (by simpa using hcnt) (by simpa using hxlen)
    (by
      intro sz hsz
      simp only [List.mem_map] at hsz
      obtain ⟨ch, hch, rfl⟩ := hsz
      exact hszs ch hch)
  have hW := writeHeaderBytes_ok _ _ rfl rfl rfl hE
  rw [closeW, if_neg (by rw [hclosed]; exact Bool.false_ne_true)]
  simp only [flush_writeData_newWriter_explicit E c lvl D hc]
  rw [hW]
  dsimp only
  simp only [crc32, List.append_assoc, List.cons_append, List.nil_append,
    List.append_nil]
  rfl

theorem u16le_flatten_length (l : List Nat) :
    ((l.map u16le).flatten).length = 2 * l.length := by
  induction l with
  | nil => rfl
  | cons a tl ih =>
    simp only [List.map_cons, List.flatten_cons, List.length_append, u16le_length,
      List.length_cons, ih]
    omega

theorem closeW_writeData_err (E : Engine) (c : Nat) (lvl : Int) (D : List Nat)
    (hc : 1 ≤ c)
    (hbad : ¬(c ≤ 65535 ∧ (chunksOf c D).length ≤ 65535 ∧
      10 + 2 * (chunksOf c D).length ≤ 65535 ∧
      ∀ ch ∈ chunksOf c D, (E.compressChunk ch).length ≤ 65535)) :
    closeW E (writeData E (newWriter c lvl) D) = .error .header := by
  have hclosed : (writeData E (newWriter c lvl) D).closed = false := by
    rw [writeData_eq_foldl E (newWriter c lvl) D hc rfl, foldl_writeByte_closed]
    rfl
  have hE : writeExtra
      { chunkSize := c, pending := [], hasData := false,
        tmp := ((chunksOf c D).map E.compressChunk).flatten,
        sizes := (chunksOf c D).map (fun ch => (E.compressChunk ch).length),
        digest := crcUpdate crcInit D, isize := D.length, closed := false,
        name := [], comment := [], extra := [], os := 0xff, modTime := 0,
        level := lvl } = .error .header := by
    simp only [writeExtra, List.length_nil, List.length_map]
    by_cases h1 : 65535 < c
    · rw [if_pos h1]
    · rw [if_neg h1]
      by_cases h2 : 65535 < (chunksOf c D).length
      · rw [if_pos h2]
      · rw [if_neg h2]
        by_cases h3 : 65535 < 4 + (6 + (chunksOf c D).length * 2) + 0
        · rw [if_pos h3]
        · rw [if_neg h3]
          rw [if_pos ?_]
          rw [List.any_eq_true]
          have h4 : ¬∀ ch ∈ chunksOf c D, (E.compressChunk ch).length ≤ 65535 := by
            intro h4
            exact hbad ⟨by omega, by omega, by omega, h4⟩
          push_neg at h4
          obtain ⟨ch, hch, hgt⟩ := h4
          refine ⟨(E.compressChunk ch).length, List.mem_map_of_mem _ hch, ?_⟩
          rw [decide_eq_true_eq]
          omega
  have hW : writeHeaderBytes
      { chunkSize := c, pending := [], hasData := false,
        tmp := ((chunksOf c D).map E.compressChunk).flatten,
        sizes := (chunksOf c D).map (fun ch => (E.compressChunk ch).length),
        digest := crcUpdate crcInit D, isize := D.length, closed := false,
        name := [], comment := [], extra := [], os := 0xff, modTime := 0,
        level := lvl } = .error .header := by
    rw [writeHeaderBytes, hE]
    rfl
  rw [closeW, if_neg (by rw [hclosed]; exact Bool.false_ne_true)]
  simp only [flush_writeData_newWriter_explicit E c lvl D hc]
  rw [hW]

/-- Claim C1 (amended).  The original claim — for every `D` and every chunk
size `c` with `1 ≤ c ≤ 65535`, writing `D` (in any number of `Write` calls)
and closing produces an archive that reads back exactly `D` — is false,
because `Close` can fail: with `c = 1` and `|D| = 32763` the EXTRA field's
XLEN is `10 + 2·32763 = 65536 > 65535`, so `Close` returns `ErrHeader` and no
archive is produced (see `c1_counterexample`).  Amended statement: whenever
the writer's `Close` succeeds with archive bytes `A` and `NewReader` accepts
`A`, sequential `Read` with any buffer size `bufSize ≥ 1` until end-of-stream
(`io.ReadAll`) yields exactly the concatenation of the written slices. -/
theorem c1_roundtrip_amended (E : Engine) (c : Nat) (lvl : Int) (parts : List (List Nat))
    (A : List Nat) (r : RState) (bufSize : Nat)
    (hc : 1 ≤ c) (hb : 1 ≤ bufSize)
    (hD : ∀ b ∈ parts.flatten, b < 256)
    (hA : closeW E (writeMany E (newWriter c lvl) parts) = .ok A)
    (hr : newReaderFromBytes A = .ok r) :
    readAllAux E (parts.flatten.length + 1) r bufSize [] = some parts.flatten := by
  rw [writeMany_flatten E parts (newWriter c lvl) hc] at hA
  by_cases hall : c ≤ 65535 ∧ (chunksOf c parts.flatten).length ≤ 65535 ∧
      10 + 2 * (chunksOf c parts.flatten).length ≤ 65535 ∧
      ∀ ch ∈ chunksOf c parts.flatten, (E.compressChunk ch).length ≤ 65535
  case neg =>
    rw [closeW_writeData_err E c lvl parts.flatten hc hall] at hA
    exact absurd hA (by simp)
  obtain ⟨hc2, hcnt, hxlen, hszs⟩ := hall
  rw [closeW_writeData_ok E c lvl parts.flatten hc hc2 hcnt hxlen hszs] at hA
  injection hA with hA
  subst hA
  have hszs' : ∀ sz ∈ (chunksOf c parts.flatten).map
      (fun ch => (E.compressChunk ch).length), sz < 65536 := by
    intro sz hsz
    rw [List.mem_map] at hsz
    obtain ⟨ch, hch, rfl⟩ := hsz
    have := hszs ch hch
    omega
  have hxlen' : 10 + 2 * ((chunksOf c parts.flatten).map
      (fun ch => (E.compressChunk ch).length)).length ≤ 65535 := by
    rw [List.length_map]
    exact hxlen
  simp only [newReaderFromBytes] at hr
  rw [readHeader_archive c
    ((chunksOf c parts.flatten).map (fun ch => (E.compressChunk ch).length))
    (xflByte (newWriter c lvl)) 255
    (((chunksOf c parts.flatten).map E.compressChunk).flatten ++
      (E.closeMarker ++
        (u32le (crc32 parts.flatten) ++ u32le (parts.flatten.length % 2 ^ 32))))
    (by omega) hszs' hxlen'] at hr
  dsimp only at hr
  injection hr with hr
  subst hr
  have hH : ([31, 139, 8, 4, 0, 0, 0, 0, xflByte (newWriter c lvl), 255] ++
      (u16le (10 + 2 * ((chunksOf c parts.flatten).map
        (fun ch => (E.compressChunk ch).length)).length) ++
       ([82, 65] ++
        (u16le (6 + 2 * ((chunksOf c parts.flatten).map
          (fun ch => (E.compressChunk ch).length)).length) ++
         (u16le 1 ++
          (u16le c ++
           (u16le ((chunksOf c parts.flatten).map
             (fun ch => (E.compressChunk ch).length)).length ++
            (((chunksOf c parts.flatten).map
              (fun ch => (E.compressChunk ch).length)).map u16le).flatten))))))).length
      = 22 + 2 * ((chunksOf c parts.flatten).map
          (fun ch => (E.compressChunk ch).length)).length := by
    simp only [List.length_append, List.length_cons, List.length_nil, u16le_length,
      u16le_flatten_length]
    omega
  have hgroup : [31, 139, 8, 4, 0, 0, 0, 0, xflByte (newWriter c lvl), 255] ++
      (u16le (10 + 2 * ((chunksOf c parts.flatten).map
        (fun ch => (E.compressChunk ch).length)).length) ++
       (([82, 65] ++
         (u16le (6 + 2 * ((chunksOf c parts.flatten).map
           (fun ch => (E.compressChunk ch).length)).length) ++
          (u16le 1 ++
           (u16le c ++
            (u16le ((chunksOf c parts.flatten).map
              (fun ch => (E.compressChunk ch).length)).length ++
             (((chunksOf c parts.flatten).map
               (fun ch => (E.compressChunk ch).length)).map u16le).flatten))))) ++
        (((chunksOf c parts.flatten).map E.compressChunk).flatten ++
         (E.closeMarker ++
          (u32le (crc32 parts.flatten) ++ u32le (parts.flatten.length % 2 ^ 32))))))
      = ([31, 139, 8, 4, 0, 0, 0, 0, xflByte (newWriter c lvl), 255] ++
         (u16le (10 + 2 * ((chunksOf c parts.flatten).map
           (fun ch => (E.compressChunk ch).length)).length) ++
          ([82, 65] ++
           (u16le (6 + 2 * ((chunksOf c parts.flatten).map
             (fun ch => (E.compressChunk ch).length)).length) ++
            (u16le 1 ++
             (u16le c ++
              (u16le ((chunksOf c parts.flatten).map
                (fun ch => (E.compressChunk ch).length)).length ++
               (((chunksOf c parts.flatten).map
                 (fun ch => (E.compressChunk ch).length)).map u16le).flatten))))))) ++
        (((chunksOf c parts.flatten).map E.compressChunk).flatten ++
         (E.closeMarker ++
          (u32le (crc32 parts.flatten) ++ u32le (parts.flatten.length % 2 ^ 32)))) := by
    simp only [List.append_assoc]
  rw [hgroup, ← hH]
  have hmain := readAllAux_archive E c parts.flatten
    ([31, 139, 8, 4, 0, 0, 0, 0, xflByte (newWriter c lvl), 255] ++
     (u16le (10 + 2 * ((chunksOf c parts.flatten).map
       (fun ch => (E.compressChunk ch).length)).length) ++
      ([82, 65] ++
       (u16le (6 + 2 * ((chunksOf c parts.flatten).map
         (fun ch => (E.compressChunk ch).length)).length) ++
        (u16le 1 ++
         (u16le c ++
          (u16le ((chunksOf c parts.flatten).map
            (fun ch => (E.compressChunk ch).length)).length ++
           (((chunksOf c parts.flatten).map
             (fun ch => (E.compressChunk ch).length)).map u16le).flatten)))))))
    (u32le (crc32 parts.flatten) ++ u32le (parts.flatten.length % 2 ^ 32))
    bufSize hc hD hb (parts.flatten.length + 1) 0 [] (Nat.zero_le _)
    (by
      rw [Nat.sub_zero]
      calc parts.flatten.length < parts.flatten.length + 1 := Nat.lt_succ_self _
        _ = (parts.flatten.length + 1) * 1 := (Nat.mul_one _).symm
        _ ≤ (parts.flatten.length + 1) * bufSize := Nat.mul_le_mul_left _ hb)
  rw [Nat.cast_zero, List.nil_append, List.drop_zero] at hmain
  exact hmain

/-- Counterexample to claim C1 as stated: with chunk size `c = 1` (which is in
`[1, 65535]`) and the 32763-byte input `List.replicate 32763 0`, `Close` fails
with `ErrHeader` because XLEN = `10 + 2·32763 = 65536` exceeds 65535, so no
archive is produced and nothing can be read back. -/
theorem c1_counterexample :
    closeW storeEngine (writeMany storeEngine (newWriter 1 (-1))
      [List.replicate 32763 0]) = .error .header := by
  rw [writeMany, List.foldl_cons, List.foldl_nil]
  have hlen : (chunksOf 1 (List.replicate 32763 0)).length = 32763 := by
    rw [chunksOf_length 1 le_rfl, List.length_replicate]
  refine closeW_writeData_err storeEngine 1 (-1) (List.replicate 32763 0) le_rfl ?_
  rintro ⟨-, -, hx, -⟩
  rw [hlen] at hx
  omega

theorem c1_roundtrip_amended_witness :
    readAllAux storeEngine 4
      ⟨[31, 139, 8, 4, 0, 0, 0, 0, 0, 255, 14, 0, 82, 65, 10, 0, 1, 0, 2, 0,
        2, 0, 2, 0, 1, 0, 1, 2, 3, 256, 29, 128, 188, 85, 3, 0, 0, 0],
       2, [26, 28, 29], 0⟩ 1 [] = some [1, 2, 3] :=
  c1_roundtrip_amended storeEngine 2 (-1) [[1, 2], [3]]
    [31, 139, 8, 4, 0, 0, 0, 0, 0, 255, 14, 0, 82, 65, 10, 0, 1, 0, 2, 0,
     2, 0, 2, 0, 1, 0, 1, 2, 3, 256, 29, 128, 188, 85, 3, 0, 0, 0]
    ⟨[31, 139, 8, 4, 0, 0, 0, 0, 0, 255, 14, 0, 82, 65, 10, 0, 1, 0, 2, 0,
      2, 0, 2, 0, 1, 0, 1, 2, 3, 256, 29, 128, 188, 85, 3, 0, 0, 0],
     2, [26, 28, 29], 0⟩ 1
    (by decide) (by decide) (by decide) (by decide) (by decide)

/-- Claim C2: chunk boundaries depend only on the cumulative count of bytes
written, not on `Write` call boundaries: writing any partition of `D` slice
by slice leaves the writer in exactly the state of a single `Write` of all
of `D`, and the final output produced by `Close` is byte-identical. -/
theorem c2_write_boundaries (E : Engine) (c : Nat) (lvl : Int)
    (parts : List (List Nat)) (hc : 1 ≤ c) :
    writeMany E (newWriter c lvl) parts =
      writeData E (newWriter c lvl) parts.flatten ∧
    closeW E (writeMany E (newWriter c lvl) parts) =
      closeW E (writeData E (newWriter c lvl) parts.flatten) := by
  have h := writeMany_flatten E parts (newWriter c lvl) hc
  exact ⟨h, by rw [h]⟩

theorem c2_write_boundaries_witness :
    writeMany storeEngine (newWriter 2 (-1)) [[1, 2], [3]] =
      writeData storeEngine (newWriter 2 (-1)) [1, 2, 3] ∧
    closeW storeEngine (writeMany storeEngine (newWriter 2 (-1)) [[1, 2], [3]]) =
      closeW storeEngine (writeData storeEngine (newWriter 2 (-1)) [1, 2, 3]) :=
  c2_write_boundaries storeEngine 2 (-1) [[1, 2], [3]] (by decide)

/-- Claim C3 (amended).  The original claim — every `Read`/`ReadAt` whose
target offset yields a chunk number at or past the number of chunks returns
clean end-of-stream with zero bytes — is false: on a valid archive with zero
chunks, `ReadAt` at offset `-1` has chunk number `(-1).tdiv chunkSize = 0 ≥ 0`
(the number of chunks), yet the call panics on the negative offset instead of
returning end-of-stream (see `c3_counterexample`); the code's guard compares
against `len(offsets) = len(chunks) + 1`, not the number of chunks.  Amended
statement: when the chunk number is at least `len(offsets)` — in particular
for every offset at or past the end of data on a well-formed archive — both
`ReadAt` and `Read` return zero bytes with `io.EOF` and no other effect. -/
theorem c3_eof_amended (E : Engine) (r : RState) (off : Int) (n : Nat)
    (hcs : r.chunkSize ≠ 0)
    (hguard : (r.offsets.length : Int) ≤ off.tdiv r.chunkSize)
    (hguard2 : (r.offsets.length : Int) ≤ r.offset.tdiv r.chunkSize) :
    ReaderReadAt E r off n = some ([], true, r) ∧
    ReaderRead E r n = some ([], true, r) := by
  have hA : readChunk E r off n = .bytes [] true := by
    simp only [readChunk]
    rw [if_neg hcs, if_pos hguard]
  have hB : readChunk E r r.offset n = .bytes [] true := by
    simp only [readChunk]
    rw [if_neg hcs, if_pos hguard2]
  constructor
  · simp only [ReaderReadAt, hA]
    simp only [List.take_nil]
  · simp only [ReaderRead, hB]
    simp only [List.take_nil, List.length_nil, Nat.cast_zero, add_zero]

/-- Counterexample to claim C3 as stated: the 31-byte archive below is valid
(a freshly opened reader is returned for it) and holds zero chunks; `ReadAt`
with a 1-byte buffer at offset `-1` has chunk number `(-1).tdiv 2 = 0`, which
is at (hence not below) the number of chunks, yet the call panics on the
negative read offset (modelled `none`) rather than returning a clean
end-of-stream. -/
theorem c3_counterexample :
    newReaderFromBytes
        [31, 139, 8, 4, 0, 0, 0, 0, 0, 255, 10, 0, 82, 65, 6, 0, 1, 0, 2, 0,
         0, 0, 256, 0, 0, 0, 0, 0, 0, 0, 0]
      = .ok ⟨[31, 139, 8, 4, 0, 0, 0, 0, 0, 255, 10, 0, 82, 65, 6, 0, 1, 0,
              2, 0, 0, 0, 256, 0, 0, 0, 0, 0, 0, 0, 0], 2, [22], 0⟩ ∧
    (-1 : Int).tdiv 2 = 0 ∧
    ReaderReadAt storeEngine
      ⟨[31, 139, 8, 4, 0, 0, 0, 0, 0, 255, 10, 0, 82, 65, 6, 0, 1, 0, 2, 0,
        0, 0, 256, 0, 0, 0, 0, 0, 0, 0, 0], 2, [22], 0⟩ (-1) 1 = none := by
  decide

theorem c3_eof_amended_witness :
    ReaderReadAt storeEngine
      ⟨[31, 139, 8, 4, 0, 0, 0, 0, 0, 255, 10, 0, 82, 65, 6, 0, 1, 0, 2, 0,
        0, 0, 256, 0, 0, 0, 0, 0, 0, 0, 0], 2, [22], 5⟩ 7 3
      = some ([], true,
          ⟨[31, 139, 8, 4, 0, 0, 0, 0, 0, 255, 10, 0, 82, 65, 6, 0, 1, 0, 2, 0,
            0, 0, 256, 0, 0, 0, 0, 0, 0, 0, 0], 2, [22], 5⟩) ∧
    ReaderRead storeEngine
      ⟨[31, 139, 8, 4, 0, 0, 0, 0, 0, 255, 10, 0, 82, 65, 6, 0, 1, 0, 2, 0,
        0, 0, 256, 0, 0, 0, 0, 0, 0, 0, 0], 2, [22], 5⟩ 3
      = some ([], true,
          ⟨[31, 139, 8, 4, 0, 0, 0, 0, 0, 255, 10, 0, 82, 65, 6, 0, 1, 0, 2, 0,
            0, 0, 256, 0, 0, 0, 0, 0, 0, 0, 0], 2, [22], 5⟩) :=
  c3_eof_amended storeEngine
    ⟨[31, 139, 8, 4, 0, 0, 0, 0, 0, 255, 10, 0, 82, 65, 6, 0, 1, 0, 2, 0,
      0, 0, 256, 0, 0, 0, 0, 0, 0, 0, 0], 2, [22], 5⟩ 7 3
    (by decide) (by decide) (by decide)

/-- Claim C4: `Seek` arithmetic and effects.  With the cursor at `p`:
`Seek(x, SeekCurrent)` yields cursor `p + x` when `p + x ≥ 0` and otherwise
fails with the negative-offset error leaving the cursor at `p`;
`Seek(x, SeekStart)` with `x < 0` likewise fails leaving the cursor
unchanged; `Seek(x, SeekEnd)` (whence 2) always fails with the
unsupported-seek error; and no `Seek` touches the underlying stream, chunk
size or offsets table. -/
theorem c4_seek (r : RState) (x : Int) :
    (0 ≤ r.offset + x →
      ReaderSeek r x 1 = ((r.offset + x, none), { r with offset := r.offset + x })) ∧
    (r.offset + x < 0 →
      ReaderSeek r x 1 = ((r.offset, some .negativeOffset), r)) ∧
    (x < 0 → ReaderSeek r x 0 = ((r.offset, some .negativeOffset), r)) ∧
    ReaderSeek r x 2 = ((r.offset, some .unsupportedSeek), r) ∧
    ∀ whence : Nat, (ReaderSeek r x whence).2.file = r.file ∧
      (ReaderSeek r x whence).2.chunkSize = r.chunkSize ∧
      (ReaderSeek r x whence).2.offsets = r.offsets := by
  refine ⟨?_, ?_, ?_, ?_, ?_⟩
  · intro h
    simp only [ReaderSeek, if_true]
    rw [if_neg (by omega : ¬ r.offset + x < 0), if_neg (by omega : ¬ (1 : Nat) = 0)]
  · intro h
    simp only [ReaderSeek, if_true]
    rw [if_pos h, if_neg (by omega : ¬ (1 : Nat) = 0)]
  · intro h
    simp only [ReaderSeek, if_true]
    rw [if_pos h]
  · simp only [ReaderSeek]
    rw [if_neg (by omega : ¬ (2 : Nat) = 0), if_neg (by omega : ¬ (2 : Nat) = 1)]
  · intro whence
    simp only [ReaderSeek]
    by_cases h0 : whence = 0
    · rw [if_pos h0]
      by_cases hx : x < 0
      · rw [if_pos hx]
        exact ⟨rfl, rfl, rfl⟩
      · rw [if_neg hx]
        exact ⟨rfl, rfl, rfl⟩
    · rw [if_neg h0]
      by_cases h1 : whence = 1
      · rw [if_pos h1]
        by_cases hx : r.offset + x < 0
        · rw [if_pos hx]
          exact ⟨rfl, rfl, rfl⟩
        · rw [if_neg hx]
          exact ⟨rfl, rfl, rfl⟩
      · rw [if_neg h1]
        exact ⟨rfl, rfl, rfl⟩

theorem c4_seek_witness :
    ReaderSeek ⟨[], 2, [22], 10⟩ 5 1 = ((15, none), ⟨[], 2, [22], 15⟩) ∧
    ReaderSeek ⟨[], 2, [22], 10⟩ (-11) 1 = ((10, some .negativeOffset), ⟨[], 2, [22], 10⟩) ∧
    ReaderSeek ⟨[], 2, [22], 0⟩ (-25) 0 = ((0, some .negativeOffset), ⟨[], 2, [22], 0⟩) ∧
    ReaderSeek ⟨[], 2, [22], 10⟩ 5 2 = ((10, some .unsupportedSeek), ⟨[], 2, [22], 10⟩) :=
  ⟨(c4_seek ⟨[], 2, [22], 10⟩ 5).1 (by decide),
   (c4_seek ⟨[], 2, [22], 10⟩ (-11)).2.1 (by decide),
   (c4_seek ⟨[], 2, [22], 0⟩ (-25)).2.2.1 (by decide),
   (c4_seek ⟨[], 2, [22], 10⟩ 5).2.2.2.1⟩

/-- Claim C5: after every successful header parse the offsets table has
exactly `len(sizes) + 1` entries, `offsets[0]` is the byte position
immediately following the parsed header, `offsets[i+1] = offsets[i] +
sizes[i]` for every `i < len(sizes)`, and the table is monotonically
non-decreasing. -/
theorem c5_offsets_invariants (bs : List Nat) (h : HdrOut)
    (hok : readHeader bs = .ok h) :
    h.offsets.length = h.sizes.length + 1 ∧
    h.offsets.getD 0 0 = h.start ∧
    (∀ i, i < h.sizes.length →
      h.offsets.getD (i + 1) 0 = h.offsets.getD i 0 + h.sizes.getD i 0) ∧
    h.offsets.Pairwise (· ≤ ·) := by
  obtain ⟨hoffs, -⟩ := readHeader_consumed bs h hok
  refine ⟨?_, ?_, ?_, ?_⟩
  · rw [hoffs, mkOffsets_length]
  · rw [hoffs, mkOffsets_getD h.sizes h.start 0 (Nat.zero_le _), List.take_zero,
      List.sum_nil, Nat.add_zero]
  · intro i hi
    rw [hoffs, mkOffsets_getD h.sizes h.start (i + 1) (by omega),
      mkOffsets_getD h.sizes h.start i (by omega)]
    have hsum : (h.sizes.take (i + 1)).sum = (h.sizes.take i).sum +
        h.sizes.get ⟨i, hi⟩ := List.sum_take_succ h.sizes i hi
    have hget : h.sizes.getD i 0 = h.sizes.get ⟨i, hi⟩ := by
      rw [List.getD_eq_getElem h.sizes 0 hi]
      rfl
    rw [hsum, hget]
    omega
  · rw [hoffs]
    exact mkOffsets_pairwise h.sizes h.start

theorem c5_offsets_invariants_witness :
    ([26, 28, 29] : List Nat).length = ([2, 1] : List Nat).length + 1 ∧
    ([26, 28, 29] : List Nat).getD 0 0 = 26 ∧
    (∀ i, i < ([2, 1] : List Nat).length →
      ([26, 28, 29] : List Nat).getD (i + 1) 0 =
        ([26, 28, 29] : List Nat).getD i 0 + ([2, 1] : List Nat).getD i 0) ∧
    ([26, 28, 29] : List Nat).Pairwise (· ≤ ·) :=
  c5_offsets_invariants
    [31, 139, 8, 4, 0, 0, 0, 0, 0, 255, 14, 0, 82, 65, 10, 0, 1, 0, 2, 0,
     2, 0, 2, 0, 1, 0, 1, 2, 3, 256, 29, 128, 188, 85, 3, 0, 0, 0]
    ⟨26, 2, [2, 1], [26, 28, 29], [1, 2, 3, 256, 29, 128, 188, 85, 3, 0, 0, 0]⟩
    (by decide)

/-- Claim C6: `ReadAt` leaves the sequential read cursor (indeed the whole
reader state) unchanged, so its result is stateless: a `Read` (or another
`ReadAt`) issued after a completed `ReadAt` returns exactly what it would
have returned without the intervening call. -/
theorem c6_readAt_stateless (E : Engine) (r : RState) (off0 : Int) (n0 : Nat)
    (out0 : List Nat) (eof0 : Bool) (r2 : RState) (n : Nat)
    (h : ReaderReadAt E r off0 n0 = some (out0, eof0, r2)) :
    r2 = r ∧ ReaderRead E r2 n = ReaderRead E r n ∧
      ReaderReadAt E r2 off0 n0 = ReaderReadAt E r off0 n0 := by
  have hr2 : r2 = r := by
    rw [ReaderReadAt] at h
    split at h
    · exact absurd h (by simp)
    · simp only [Option.some.injEq, Prod.mk.injEq] at h
      exact h.2.2.symm
  exact ⟨hr2, by rw [hr2], by rw [hr2]⟩

theorem c6_readAt_stateless_witness :
    (⟨[31, 139, 8, 4, 0, 0, 0, 0, 0, 255, 14, 0, 82, 65, 10, 0, 1, 0, 2, 0,
       2, 0, 2, 0, 1, 0, 1, 2, 3, 256, 29, 128, 188, 85, 3, 0, 0, 0],
      2, [26, 28, 29], 0⟩ : RState)
      = ⟨[31, 139, 8, 4, 0, 0, 0, 0, 0, 255, 14, 0, 82, 65, 10, 0, 1, 0, 2, 0,
          2, 0, 2, 0, 1, 0, 1, 2, 3, 256, 29, 128, 188, 85, 3, 0, 0, 0],
         2, [26, 28, 29], 0⟩ ∧
    ReaderRead storeEngine
      ⟨[31, 139, 8, 4, 0, 0, 0, 0, 0, 255, 14, 0, 82, 65, 10, 0, 1, 0, 2, 0,
        2, 0, 2, 0, 1, 0, 1, 2, 3, 256, 29, 128, 188, 85, 3, 0, 0, 0],
       2, [26, 28, 29], 0⟩ 2
      = ReaderRead storeEngine
      ⟨[31, 139, 8, 4, 0, 0, 0, 0, 0, 255, 14, 0, 82, 65, 10, 0, 1, 0, 2, 0,
        2, 0, 2, 0, 1, 0, 1, 2, 3, 256, 29, 128, 188, 85, 3, 0, 0, 0],
       2, [26, 28, 29], 0⟩ 2 ∧
    ReaderReadAt storeEngine
      ⟨[31, 139, 8, 4, 0, 0, 0, 0, 0, 255, 14, 0, 82, 65, 10, 0, 1, 0, 2, 0,
        2, 0, 2, 0, 1, 0, 1, 2, 3, 256, 29, 128, 188, 85, 3, 0, 0, 0],
       2, [26, 28, 29], 0⟩ 1 1
      = ReaderReadAt storeEngine
      ⟨[31, 139, 8, 4, 0, 0, 0, 0, 0, 255, 14, 0, 82, 65, 10, 0, 1, 0, 2, 0,
        2, 0, 2, 0, 1, 0, 1, 2, 3, 256, 29, 128, 188, 85, 3, 0, 0, 0],
       2, [26, 28, 29], 0⟩ 1 1 :=
  c6_readAt_stateless storeEngine
    ⟨[31, 139, 8, 4, 0, 0, 0, 0, 0, 255, 14, 0, 82, 65, 10, 0, 1, 0, 2, 0,
      2, 0, 2, 0, 1, 0, 1, 2, 3, 256, 29, 128, 188, 85, 3, 0, 0, 0],
     2, [26, 28, 29], 0⟩ 1 1 [2] false
    ⟨[31, 139, 8, 4, 0, 0, 0, 0, 0, 255, 14, 0, 82, 65, 10, 0, 1, 0, 2, 0,
      2, 0, 2, 0, 1, 0, 1, 2, 3, 256, 29, 128, 188, 85, 3, 0, 0, 0],
     2, [26, 28, 29], 0⟩ 2 (by decide)

/-- Claim C7: if the FHCRC flag bit (bit 1) of the FLG byte is set and the
stored 2-byte little-endian header-CRC differs from the low 16 bits of the
running CRC-32 digest of the header bytes consumed so far (the EXTRA field
and any NAME/COMMENT strings — the digest is created after the fixed 10-byte
lead-in), then `readHeader` fails with the bad-header-CRC error and
`NewReader` returns no reader. -/
theorem c7_header_crc_mismatch (bs : List Nat) (flg : Nat) (r1 : List Nat)
    (n2 d1 c : Nat) (szs : List Nat) (r2 : List Nat)
    (n3 d2 : Nat) (r3 : List Nat) (n4 d3 : Nat) (r4 : List Nat)
    (crcB r5 : List Nat)
    (h1 : readFlg bs = .ok (flg, r1))
    (h2 : ¬ flg &&& 4 = 0)
    (h3 : readExtra crcInit r1 = .ok (n2, d1, c, szs, r2))
    (h4 : stringStep (flg &&& 8 ≠ 0) d1 r2 = .ok (n3, d2, r3))
    (h5 : stringStep (flg &&& 16 ≠ 0) d2 r3 = .ok (n4, d3, r4))
    (h6 : flg &&& 2 ≠ 0)
    (h7 : readN 2 r4 = some (crcB, r5))
    (h8 : u16dec2 crcB ≠ (d3 ^^^ 0xFFFFFFFF) % 65536) :
    readHeader bs = .error .badCrc ∧ newReaderFromBytes bs = .error .badCrc := by
  have hcrc : crcStep (flg &&& 2 ≠ 0) d3 r4 = .error .badCrc := by
    simp only [crcStep, h7]
    rw [if_pos (decide_eq_true h6), if_pos h8]
  have hhdr : readHeader bs = .error .badCrc := by
    simp only [readHeader, h1]
    rw [if_neg h2]
    simp only [h3, h4, h5, hcrc]
  exact ⟨hhdr, by simp only [newReaderFromBytes, hhdr]⟩

set_option maxRecDepth 8000 in
theorem c7_header_crc_mismatch_witness :
    readHeader [31, 139, 8, 6, 0, 0, 0, 0, 0, 255, 10, 0, 82, 65, 6, 0,
        1, 0, 255, 255, 0, 0, 170, 187] = .error .badCrc ∧
    newReaderFromBytes [31, 139, 8, 6, 0, 0, 0, 0, 0, 255, 10, 0, 82, 65, 6, 0,
        1, 0, 255, 255, 0, 0, 170, 187] = .error .badCrc :=
  c7_header_crc_mismatch
    [31, 139, 8, 6, 0, 0, 0, 0, 0, 255, 10, 0, 82, 65, 6, 0,
     1, 0, 255, 255, 0, 0, 170, 187]
    6 [10, 0, 82, 65, 6, 0, 1, 0, 255, 255, 0, 0, 170, 187]
    12 2008774910 65535 [] [170, 187]
    0 2008774910 [170, 187] 0 2008774910 [170, 187]
    [170, 187] []
    (by decide) (by decide) (by decide) (by decide) (by decide) (by decide)
    (by decide) (by decide)

theorem writeExtra_ok_general (s : WState)
    (hc2 : s.chunkSize ≤ 65535) (hcnt : s.sizes.length ≤ 65535)
    (hxlen : 4 + (6 + s.sizes.length * 2) + s.extra.length ≤ 65535)
    (hszs : ∀ sz ∈ s.sizes, sz ≤ 65535) :
    writeExtra s = .ok (u16le (4 + (6 + s.sizes.length * 2) + s.extra.length) ++
      [82, 65] ++ u16le (6 + s.sizes.length * 2) ++ u16le 1 ++
      u16le s.chunkSize ++ u16le s.sizes.length ++
      (s.sizes.map u16le).flatten ++ s.extra) := by
  simp only [writeExtra]
  rw [if_neg (by omega), if_neg (by omega), if_neg (by omega),
    if_neg (by
      intro hany
      rw [List.any_eq_true] at hany
      obtain ⟨sz, hsz, hgt⟩ := hany
      rw [decide_eq_true_eq] at hgt
      exact absurd (hszs sz hsz) (by omega))]

/-- Claim C8: on `Close` the writer emits the EXTRA field as a 2-byte
little-endian XLEN, then the RA subfield (ID bytes `R`,`A`, LEN =
`6 + 2·len(sizes)`, VER = 1, CHLEN = chunkSize, CHCNT = `len(sizes)`, then
each compressed chunk size, all 2-byte little-endian), then the
caller-supplied extra bytes verbatim; and it fails with `ErrHeader` exactly
when chunkSize, the chunk count, the total XLEN, or some individual chunk
size exceeds 65535. -/
theorem c8_writeExtra_layout (s : WState) :
    (s.chunkSize ≤ 65535 → s.sizes.length ≤ 65535 →
     4 + (6 + s.sizes.length * 2) + s.extra.length ≤ 65535 →
     (∀ sz ∈ s.sizes, sz ≤ 65535) →
     writeExtra s = .ok (u16le (4 + (6 + s.sizes.length * 2) + s.extra.length) ++
       [82, 65] ++ u16le (6 + s.sizes.length * 2) ++ u16le 1 ++
       u16le s.chunkSize ++ u16le s.sizes.length ++
       (s.sizes.map u16le).flatten ++ s.extra)) ∧
    ((65535 < s.chunkSize ∨ 65535 < s.sizes.length ∨
      65535 < 4 + (6 + s.sizes.length * 2) + s.extra.length ∨
      ∃ sz ∈ s.sizes, 65535 < sz) ↔ writeExtra s = .error .header) := by
  constructor
  · exact writeExtra_ok_general s
  · constructor
    · intro hbad
      simp only [writeExtra]
      by_cases h1 : 65535 < s.chunkSize
      · rw [if_pos h1]
      · rw [if_neg h1]
        by_cases h2 : 65535 < s.sizes.length
        · rw [if_pos h2]
        · rw [if_neg h2]
          by_cases h3 : 65535 < 4 + (6 + s.sizes.length * 2) + s.extra.length
          · rw [if_pos h3]
          · rw [if_neg h3]
            rw [if_pos ?_]
            rw [List.any_eq_true]
            have h4 : ∃ sz ∈ s.sizes, 65535 < sz := by
              rcases hbad with h | h | h | h
              · exact absurd h h1
              · exact absurd h h2
              · exact absurd h h3
              · exact h
            obtain ⟨sz, hsz, hgt⟩ := h4
            exact ⟨sz, hsz, by rw [decide_eq_true_eq]; exact hgt⟩
    · intro herr
      by_contra hbad
      push_neg at hbad
      obtain ⟨g1, g2, g3, g4⟩ := hbad
      rw [writeExtra_ok_general s g1 g2 g3 (fun sz hsz => g4 sz hsz)] at herr
      exact absurd herr (by simp)

theorem c8_writeExtra_layout_witness :
    writeExtra ⟨2, [], false, [], [3], 0, 0, false, [], [], [7], 255, 0, -1⟩ =
      .ok [13, 0, 82, 65, 8, 0, 1, 0, 2, 0, 1, 0, 3, 0, 7] ∧
    writeExtra ⟨70000, [], false, [], [3], 0, 0, false, [], [], [7], 255, 0, -1⟩ =
      .error .header :=
  ⟨(c8_writeExtra_layout ⟨2, [], false, [], [3], 0, 0, false, [], [], [7], 255, 0, -1⟩).1
      (by decide) (by decide) (by decide) (by decide),
   (c8_writeExtra_layout ⟨70000, [], false, [], [3], 0, 0, false, [], [], [7], 255, 0, -1⟩).2.mp
      (Or.inl (by decide))⟩

/-- Claim C9: on `Close`, after the compressed chunk data and the
compressor's final marker, the writer appends exactly eight trailer bytes:
the 4-byte little-endian CRC-32 (IEEE) of all uncompressed input written,
followed by the 4-byte little-endian total uncompressed byte count reduced
modulo `2^32`. -/
theorem c9_trailer (E : Engine) (c : Nat) (lvl : Int) (D A : List Nat)
    (hc : 1 ≤ c)
    (hA : closeW E (writeData E (newWriter c lvl) D) = .ok A) :
    ∃ hdrBytes, A = hdrBytes ++ ((chunksOf c D).map E.compressChunk).flatten ++
        E.closeMarker ++ u32le (crc32 D) ++ u32le (D.length % 2 ^ 32) ∧
      (u32le (crc32 D)).length = 4 ∧ (u32le (D.length % 2 ^ 32)).length = 4 := by
  by_cases hall : c ≤ 65535 ∧ (chunksOf c D).length ≤ 65535 ∧
      10 + 2 * (chunksOf c D).length ≤ 65535 ∧
      ∀ ch ∈ chunksOf c D, (E.compressChunk ch).length ≤ 65535
  case neg =>
    rw [closeW_writeData_err E c lvl D hc hall] at hA
    exact absurd hA (by simp)
  obtain ⟨hc2, hcnt, hxlen, hszs⟩ := hall
  rw [closeW_writeData_ok E c lvl D hc hc2 hcnt hxlen hszs] at hA
  injection hA with hA
  refine ⟨[31, 139, 8, 4, 0, 0, 0, 0, xflByte (newWriter c lvl), 255] ++
    (u16le (10 + 2 * ((chunksOf c D).map (fun ch => (E.compressChunk ch).length)).length) ++
     ([82, 65] ++
      (u16le (6 + 2 * ((chunksOf c D).map (fun ch => (E.compressChunk ch).length)).length) ++
       (u16le 1 ++
        (u16le c ++
         (u16le ((chunksOf c D).map (fun ch => (E.compressChunk ch).length)).length ++
          (((chunksOf c D).map (fun ch => (E.compressChunk ch).length)).map u16le).flatten)))))),
    ?_, rfl, rfl⟩
  rw [← hA]
  simp only [List.append_assoc]

theorem c9_trailer_witness :
    ∃ hdrBytes,
      ([31, 139, 8, 4, 0, 0, 0, 0, 0, 255, 14, 0, 82, 65, 10, 0, 1, 0, 2, 0,
        2, 0, 2, 0, 1, 0, 1, 2, 3, 256, 29, 128, 188, 85, 3, 0, 0, 0] : List Nat)
        = hdrBytes ++ ((chunksOf 2 [1, 2, 3]).map storeEngine.compressChunk).flatten ++
          storeEngine.closeMarker ++ u32le (crc32 [1, 2, 3]) ++
          u32le (([1, 2, 3] : List Nat).length % 2 ^ 32) ∧
      (u32le (crc32 [1, 2, 3])).length = 4 ∧
      (u32le (([1, 2, 3] : List Nat).length % 2 ^ 32)).length = 4 :=
  c9_trailer storeEngine 2 (-1) [1, 2, 3]
    [31, 139, 8, 4, 0, 0, 0, 0, 0, 255, 14, 0, 82, 65, 10, 0, 1, 0, 2, 0,
     2, 0, 2, 0, 1, 0, 1, 2, 3, 256, 29, 128, 188, 85, 3, 0, 0, 0]
    (by decide) (by decide)

/-- Claim C10: `readChunk` is memory-safe — no out-of-range offsets-table
index, no negative buffer allocation and no division by zero — for every
position ≥ 0, every buffer length ≥ 0 and every chunkSize ≥ 1 (the
end-of-stream guard covers all chunk numbers at or beyond the table length);
and neither precondition is validated at the public interface: a header
whose CHLEN decodes to 0 is accepted without error by `readExtraSizes`
(second conjunct) yet makes every `ReadAt` divide by zero (third conjunct),
and a negative position reaches the unguarded arithmetic and panics (fourth
conjunct). -/
theorem c10_readChunk_safety (E : Engine) (r : RState) :
    (∀ off size : Int, 0 ≤ off → 0 ≤ size → 1 ≤ r.chunkSize →
      readChunk E r off size ≠ .crash) ∧
    readExtraSizes [1, 0, 0, 0, 0, 0] = .ok (0, []) ∧
    (∀ (off : Int) (n : Nat), r.chunkSize = 0 → ReaderReadAt E r off n = none) ∧
    (∀ (off : Int) (n : Nat), off < 0 → 1 ≤ r.chunkSize → r.offsets ≠ [] →
      ReaderReadAt E r off n = none) := by
  refine ⟨?_, by decide, ?_, ?_⟩
  · intro off size hoff hsize hcs
    simp only [readChunk]
    rw [if_neg (by omega : ¬ r.chunkSize = 0)]
    have hnn : 0 ≤ off.tdiv (r.chunkSize : Int) :=
      Int.tdiv_nonneg hoff (by exact_mod_cast Nat.zero_le r.chunkSize)
    by_cases hguard : (r.offsets.length : Int) ≤ off.tdiv (r.chunkSize : Int)
    · rw [if_pos hguard]
      intro hcon
      exact RcResult.noConfusion hcon
    · rw [if_neg hguard, if_neg (by omega : ¬ off.tdiv (r.chunkSize : Int) < 0)]
      have hrs : 0 ≤ off - off.tdiv (r.chunkSize : Int) * (r.chunkSize : Int) := by
        rw [Int.tdiv_eq_ediv hoff (by exact_mod_cast Nat.zero_le r.chunkSize)]
        have h1 := Int.emod_nonneg off
          (show (r.chunkSize : Int) ≠ 0 by
            have : (0 : Int) < (r.chunkSize : Int) := by exact_mod_cast hcs
            omega)
        rw [Int.emod_def, Int.mul_comm] at h1
        exact h1
      rw [if_neg (by
        omega : ¬ size + (off - off.tdiv (r.chunkSize : Int) * (r.chunkSize : Int)) < 0)]
      by_cases hlt : min
          (size + (off - off.tdiv (r.chunkSize : Int) * (r.chunkSize : Int)))
          (((E.decompress (r.file.drop
            (r.offsets.getD (off.tdiv (r.chunkSize : Int)).toNat 0))).length : Int))
          < off - off.tdiv (r.chunkSize : Int) * (r.chunkSize : Int)
      · rw [if_pos hlt]
        intro hcon
        exact RcResult.noConfusion hcon
      · rw [if_neg hlt, if_neg (by
          omega : ¬ off - off.tdiv (r.chunkSize : Int) * (r.chunkSize : Int) < 0)]
        intro hcon
        exact RcResult.noConfusion hcon
  · intro off n hcs0
    simp only [ReaderReadAt, readChunk]
    rw [if_pos hcs0]
  · intro off n hoff hcs hne
    simp only [ReaderReadAt, readChunk]
    rw [if_neg (by omega : ¬ r.chunkSize = 0)]
    have hlen : 1 ≤ r.offsets.length := List.length_pos.mpr hne
    have htd : off.tdiv (r.chunkSize : Int) ≤ 0 := by
      have h1 : 0 ≤ (-off).tdiv (r.chunkSize : Int) :=
        Int.tdiv_nonneg (by omega) (by exact_mod_cast Nat.zero_le r.chunkSize)
      have h2 : (-off).tdiv (r.chunkSize : Int) = -(off.tdiv (r.chunkSize : Int)) :=
        Int.neg_tdiv off (r.chunkSize : Int)
      omega
    rw [if_neg (by
      have : (1 : Int) ≤ (r.offsets.length : Int) := by exact_mod_cast hlen
      omega : ¬ (r.offsets.length : Int) ≤ off.tdiv (r.chunkSize : Int))]
    by_cases hneg : off.tdiv (r.chunkSize : Int) < 0
    · rw [if_pos hneg]
    · rw [if_neg hneg]
      have h0 : off.tdiv (r.chunkSize : Int) = 0 := by omega
      rw [h0]
      simp only [zero_mul, sub_zero, Int.toNat_zero]
      by_cases hcr : (n : Int) + off < 0
      · rw [if_pos hcr]
      · rw [if_neg hcr]
        rw [if_neg (by
          have : (0 : Int) ≤
              ((E.decompress (r.file.drop (r.offsets.getD 0 0))).length : Int) := by
            exact_mod_cast Nat.zero_le _
          omega), if_pos hoff]

theorem c10_readChunk_safety_witness :
    readChunk storeEngine
      ⟨[31, 139, 8, 4, 0, 0, 0, 0, 0, 255, 14, 0, 82, 65, 10, 0, 1, 0, 2, 0,
        2, 0, 2, 0, 1, 0, 1, 2, 3, 256, 29, 128, 188, 85, 3, 0, 0, 0],
       2, [26, 28, 29], 0⟩ 0 1 ≠ .crash ∧
    readExtraSizes [1, 0, 0, 0, 0, 0] = .ok (0, []) ∧
    ReaderReadAt storeEngine
      ⟨[31, 139, 8, 4, 0, 0, 0, 0, 0, 255, 14, 0, 82, 65, 10, 0, 1, 0, 2, 0,
        2, 0, 2, 0, 1, 0, 1, 2, 3, 256, 29, 128, 188, 85, 3, 0, 0, 0],
       0, [26, 28, 29], 0⟩ 0 1 = none ∧
    ReaderReadAt storeEngine
      ⟨[31, 139, 8, 4, 0, 0, 0, 0, 0, 255, 14, 0, 82, 65, 10, 0, 1, 0, 2, 0,
        2, 0, 2, 0, 1, 0, 1, 2, 3, 256, 29, 128, 188, 85, 3, 0, 0, 0],
       2, [26, 28, 29], 0⟩ (-1) 1 = none :=
  ⟨(c10_readChunk_safety storeEngine
      ⟨[31, 139, 8, 4, 0, 0, 0, 0, 0, 255, 14, 0, 82, 65, 10, 0, 1, 0, 2, 0,
        2, 0, 2, 0, 1, 0, 1, 2, 3, 256, 29, 128, 188, 85, 3, 0, 0, 0],
       2, [26, 28, 29], 0⟩).1 0 1 (by decide) (by decide) (by decide),
   (c10_readChunk_safety storeEngine
      ⟨[], 0, [], 0⟩).2.1,
   (c10_readChunk_safety storeEngine
      ⟨[31, 139, 8, 4, 0, 0, 0, 0, 0, 255, 14, 0, 82, 65, 10, 0, 1, 0, 2, 0,
        2, 0, 2, 0, 1, 0, 1, 2, 3, 256, 29, 128, 188, 85, 3, 0, 0, 0],
       0, [26, 28, 29], 0⟩).2.2.1 0 1 (by decide),
   (c10_readChunk_safety storeEngine
      ⟨[31, 139, 8, 4, 0, 0, 0, 0, 0, 255, 14, 0, 82, 65, 10, 0, 1, 0, 2, 0,
        2, 0, 2, 0, 1, 0, 1, 2, 3, 256, 29, 128, 188, 85, 3, 0, 0, 0],
       2, [26, 28, 29], 0⟩).2.2.2 (-1) 1 (by decide) (by decide) (by decide)⟩

end GoDictzip
